import Mathlib

/-!
# Linked-list queue of strings (`queue.c`)

A shallow embedding of `queue.c` over an explicit heap, and the properties of
its operations.

* A C pointer is an `Option Ptr`: `none` is `NULL`, `some a` is the address `a`.
* The heap is split by block type: `nodes` holds the `list_ele_t` blocks and
  `strs` holds the `char` blocks produced by `strdup`.  An address that is not
  allocated maps to `none`; dereferencing or freeing it is undefined behaviour,
  which every operation reports by returning `none`.
* A C string is the list of its bytes before the terminating NUL.
* `malloc` and `strdup` are the environment: their results are arguments of the
  operations (`none` when the allocation fails).
* Loops take a fuel argument counting loop tests; running out of fuel is reported
  by `none` as well.
-/

namespace Queue

/-- Heap addresses. -/
abbrev Ptr := Nat

/-- C strings: the bytes before the terminating NUL. -/
abbrev Str := List Nat

/-- Modelled from the spec: the element type `list_ele_t` of `queue.h`, which `queue.c`
includes: an element holds a pointer `value` to its own copy of a string and a link
`next` to the following element (the two fields `queue.c` accesses). -/
structure list_ele_t where
  value : Option Ptr
  next : Option Ptr
deriving DecidableEq

/-- Modelled from the spec: the queue type `queue_t` of `queue.h`, which `queue.c`
includes: references `head` and `tail` to the first and the last element and the number
`nr` of linked elements (the three fields `queue.c` accesses; the C type of `nr` is
declared in the header, and `nr` is an unbounded integer here). -/
structure queue_t where
  head : Option Ptr
  tail : Option Ptr
  nr : Int
deriving DecidableEq

/-- Heap of blocks of one type. -/
abbrev Heap (α : Type) := Ptr → Option α

/-- Program state seen through one queue handle `q`: `q = none` when the handle is
`NULL`, otherwise the contents of `*q`; and the two heaps. -/
structure World where
  q : Option queue_t
  nodes : Heap list_ele_t
  strs : Heap Str

/-- Write (or with `none`, deallocate) the block at address `a`. -/
def store {α : Type} (h : Heap α) (a : Ptr) (x : Option α) : Heap α :=
  fun b => if b = a then x else h b

/-- The call `free(p)` on a non-null pointer: undefined unless the block is allocated. -/
def free {α : Type} (h : Heap α) (a : Ptr) : Option (Heap α) :=
  match h a with
  | none => none
  | some _ => some (store h a none)

/-- Width of `size_t` in bits. -/
def SIZE_BITS : Nat := 64

/-- Subtraction of `size_t` values, modulo `2 ^ SIZE_BITS`. -/
def size_sub (a b : Nat) : Nat := (a + (2 ^ SIZE_BITS - b % 2 ^ SIZE_BITS)) % 2 ^ SIZE_BITS

/-- Memory starting at a `char *`: the byte at each offset. -/
abbrev Buf := Nat → Nat

/-- The call `memset(sp, c, n)`: the first `n` bytes become `c`. -/
def memset (sp : Buf) (c n : Nat) : Buf :=
  fun i => if i < n then c else sp i

/-- The call `strncpy(dst, src, n)`: exactly `n` bytes are written, the bytes of
`src` first and NUL bytes after them. -/
def strncpy (dst : Buf) (src : Str) (n : Nat) : Buf :=
  fun i => if i < n then src.getD i 0 else dst i

/-- A block released by a call of `free`: the string at an address, the element at an
address, or the queue structure. -/
inductive Freed where
  | str (v : Ptr)
  | node (a : Ptr)
  | queue
deriving DecidableEq

/-- The `while (ptr)` loop of `q_free`; returns the heaps and the blocks released, in
the order of the calls of `free`. -/
def free_loop : Nat → Heap list_ele_t → Heap Str → Option Ptr →
    Option (Heap list_ele_t × Heap Str × List Freed)
  | 0, _, _, _ => none
  | _ + 1, nodes, strs, none => some (nodes, strs, [])
  | fuel + 1, nodes, strs, some self =>
    match nodes self with
    | none => none
    | some e =>
      let freed_value : Option (Heap Str × List Freed) :=
        match e.value with
        | none => some (strs, [])
        | some v =>
          match free strs v with
          | none => none
          | some strs1 => some (strs1, [Freed.str v])
      match freed_value with
      | none => none
      | some (strs1, l1) =>
        match free nodes self with
        | none => none
        | some nodes1 =>
          match free_loop fuel nodes1 strs1 e.next with
          | none => none
          | some (nodes2, strs2, l2) => some (nodes2, strs2, l1 ++ Freed.node self :: l2)

/-- The function `q_free`; returns the state and the blocks released, in the order of
the calls of `free`.  After `free(q)` there is no queue structure behind the handle. -/
def q_free (fuel : Nat) (w : World) : Option (World × List Freed) :=
  match w.q with
  | none => some (w, [])
  | some q =>
    match free_loop fuel w.nodes w.strs q.head with
    | none => none
    | some (nodes1, strs1, l) => some (⟨none, nodes1, strs1⟩, l ++ [Freed.queue])

/-- The function `q_insert_head`: `m` is the result of `malloc(sizeof(list_ele_t))` and `d` the
result of `strdup(s)`. -/
def q_insert_head (w : World) (s : Str) (m d : Option Ptr) : Option (Bool × World) :=
  match w.q with
  | none => some (false, w)
  | some q =>
    match m with
    | none => some (false, w)
    | some newh =>
      let nodes0 := store w.nodes newh (some ⟨none, none⟩)
      match d with
      | none =>
        (free nodes0 newh).map fun nodes1 => (false, ⟨some q, nodes1, w.strs⟩)
      | some v =>
        let strs1 := store w.strs v (some s)
        let nodes1 := store nodes0 newh (some ⟨some v, q.head⟩)
        let q1 : queue_t := ⟨some newh, q.tail, q.nr⟩
        let q2 : queue_t := if q1.tail = none then ⟨q1.head, some newh, q1.nr⟩ else q1
        some (true, ⟨some ⟨q2.head, q2.tail, q2.nr + 1⟩, nodes1, strs1⟩)

/-- The function `q_insert_tail`: `m` is the result of `malloc(sizeof(list_ele_t))` and `d` the
result of `strdup(s)`. -/
def q_insert_tail (w : World) (s : Str) (m d : Option Ptr) : Option (Bool × World) :=
  match w.q with
  | none => some (false, w)
  | some q =>
    match m with
    | none => some (false, w)
    | some newh =>
      let nodes0 := store w.nodes newh (some ⟨none, none⟩)
      match d with
      | none =>
        (free nodes0 newh).map fun nodes1 => (false, ⟨some q, nodes1, w.strs⟩)
      | some v =>
        let strs1 := store w.strs v (some s)
        let nodes1 := store nodes0 newh (some ⟨some v, none⟩)
        match q.tail with
        | none =>
          some (true, ⟨some ⟨some newh, some newh, q.nr + 1⟩, nodes1, strs1⟩)
        | some t =>
          match nodes1 t with
          | none => none
          | some et =>
            let nodes2 := store nodes1 t (some ⟨et.value, some newh⟩)
            some (true, ⟨some ⟨q.head, some newh, q.nr + 1⟩, nodes2, strs1⟩)

/-- The copy-out of `q_remove_head` (the block under `if (sp)`). -/
def copy_out (strs : Heap Str) (value : Option Ptr) (sp : Option Buf) (bufsize : Nat) :
    Option (Option Buf) :=
  match sp with
  | none => some none
  | some buf =>
    let buf1 := memset buf 0 bufsize
    match value with
    | none => some (some buf1)
    | some v =>
      match strs v with
      | none => none
      | some s => some (some (strncpy buf1 s (size_sub bufsize 1)))

/-- The function `q_remove_head`: returns the result, the new state and the contents of
`sp`. -/
def q_remove_head (w : World) (sp : Option Buf) (bufsize : Nat) :
    Option (Bool × World × Option Buf) :=
  match w.q with
  | none => some (false, w, sp)
  | some q =>
    match q.head with
    | none => some (false, w, sp)
    | some rm =>
      match w.nodes rm with
      | none => none
      | some e =>
        match copy_out w.strs e.value sp bufsize with
        | none => none
        | some sp1 =>
          let strs1 := match e.value with
            | none => some w.strs
            | some v => free w.strs v
          match strs1 with
          | none => none
          | some strs1 =>
            let tail1 := if some rm = q.tail then none else q.tail
            match free w.nodes rm with
            | none => none
            | some nodes1 => some (true, ⟨some ⟨e.next, tail1, q.nr - 1⟩, nodes1, strs1⟩, sp1)

/-- The function `q_size`. -/
def q_size (w : World) : Int :=
  match w.q with
  | none => 0
  | some q => q.nr

/-- The `while (cur->next)` loop of `q_reverse`; returns the heap, `cur` and `prev`. -/
def reverse_loop : Nat → Heap list_ele_t → Ptr → Option Ptr →
    Option (Heap list_ele_t × Ptr × Option Ptr)
  | 0, _, _, _ => none
  | fuel + 1, nodes, cur, prev =>
    match nodes cur with
    | none => none
    | some e =>
      match e.next with
      | none => some (nodes, cur, prev)
      | some tmp => reverse_loop fuel (store nodes cur (some ⟨e.value, prev⟩)) tmp (some cur)

/-- The function `q_reverse`. -/
def q_reverse (fuel : Nat) (w : World) : Option World :=
  match w.q with
  | none => some w
  | some q =>
    match q.head with
    | none => some w
    | some h =>
      match reverse_loop fuel w.nodes h none with
      | none => none
      | some (nodes1, cur, prev) =>
        match nodes1 cur with
        | none => none
        | some e =>
          let nodes2 := store nodes1 cur (some ⟨e.value, prev⟩)
          some ⟨some ⟨some cur, q.head, q.nr⟩, nodes2, w.strs⟩

/-- The string a node's `value` points to (`none`: the access is undefined). -/
def read_value (nodes : Heap list_ele_t) (strs : Heap Str) (a : Ptr) : Option Str :=
  match nodes a with
  | none => none
  | some e =>
    match e.value with
    | none => none
    | some v => strs v

/-- Reading `*haystack`, where `haystack : list_ele_t **` is either `&head`
(`none`) or `&(a->next)` (`some a`). -/
def load_haystack (nodes : Heap list_ele_t) (head : Option Ptr) :
    Option Ptr → Option (Option Ptr)
  | none => some head
  | some a =>
    match nodes a with
    | none => none
    | some e => some e.next

/-- The assignment `*haystack = p`; returns the heap and `head`. -/
def store_haystack (nodes : Heap list_ele_t) (head : Option Ptr) (p : Option Ptr) :
    Option Ptr → Option (Heap list_ele_t × Option Ptr)
  | none => some (nodes, p)
  | some a =>
    match nodes a with
    | none => none
    | some e => some (store nodes a (some ⟨e.value, p⟩), head)

/-- The `while (*haystack)` loop of `q_sort`, with `strnatcmp` as the parameter
`cmp`; returns the final `haystack`. -/
def sort_scan (cmp : Str → Str → Int) (nodes : Heap list_ele_t) (strs : Heap Str)
    (head : Option Ptr) (ins : Ptr) : Nat → Option Ptr → Option (Option Ptr)
  | 0, _ => none
  | fuel + 1, haystack =>
    match load_haystack nodes head haystack with
    | none => none
    | some none => some haystack
    | some (some y) =>
      match read_value nodes strs ins, read_value nodes strs y with
      | some vi, some vy =>
        if cmp vi vy ≤ 0 then some haystack
        else sort_scan cmp nodes strs head ins fuel (some y)
      | _, _ => none

/-- The `while (e)` loop of `q_sort`; returns the heap, `head` and `tail`. -/
def sort_loop (cmp : Str → Str → Int) (strs : Heap Str) (scanfuel : Nat) :
    Nat → Heap list_ele_t → Option Ptr → Option Ptr → Option Ptr →
    Option (Heap list_ele_t × Option Ptr × Option Ptr)
  | 0, _, _, _, _ => none
  | _ + 1, nodes, head, tail, none => some (nodes, head, tail)
  | fuel + 1, nodes, head, tail, some ins =>
    match nodes ins with
    | none => none
    | some ei =>
      let e1 := ei.next
      let nodes1 := store nodes ins (some ⟨ei.value, none⟩)
      match sort_scan cmp nodes1 strs head ins scanfuel none with
      | none => none
      | some haystack =>
        match load_haystack nodes1 head haystack with
        | none => none
        | some tmp =>
          let tail1 := if tmp = none then some ins else tail
          match store_haystack nodes1 head (some ins) haystack with
          | none => none
          | some (nodes2, head2) =>
            match nodes2 ins with
            | none => none
            | some ei2 =>
              let nodes3 := store nodes2 ins (some ⟨ei2.value, tmp⟩)
              sort_loop cmp strs scanfuel fuel nodes3 head2 tail1 e1

/-- The function `q_sort`, with `strnatcmp` as the parameter `cmp`. -/
def q_sort (cmp : Str → Str → Int) (fuel : Nat) (w : World) : Option World :=
  match w.q with
  | none => some w
  | some q =>
    match q.head with
    | none => some w
    | some h =>
      match w.nodes h with
      | none => none
      | some eh =>
        let e := eh.next
        let nodes1 := store w.nodes h (some ⟨eh.value, none⟩)
        match sort_loop cmp w.strs fuel fuel nodes1 (some h) (some h) e with
        | none => none
        | some (nodes2, head, tail) => some ⟨some ⟨head, tail, q.nr⟩, nodes2, w.strs⟩

/-! ## Abstraction: the queue as a sequence of elements -/

/-- The call `q->head` through the handle (`none` also when the handle is `NULL`). -/
def World.head (w : World) : Option Ptr := w.q.bind queue_t.head

/-- The call `q->tail` through the handle (`none` also when the handle is `NULL`). -/
def World.tail (w : World) : Option Ptr := w.q.bind queue_t.tail

/-- The list segment `lseg nodes p L r`: following `next` from `p` visits exactly the nodes `L` and
then arrives at `r`. -/
def lseg (nodes : Heap list_ele_t) : Option Ptr → List Ptr → Option Ptr → Prop
  | p, [], r => p = r
  | p, a :: L, r => p = some a ∧ ∃ e, nodes a = some e ∧ lseg nodes e.next L r

/-- The chain `chain nodes p L`: following `next` from `p` visits exactly the nodes `L` and
then arrives at `NULL`. -/
def chain (nodes : Heap list_ele_t) : Option Ptr → List Ptr → Prop
  | p, [] => p = none
  | p, a :: L => p = some a ∧ ∃ e, nodes a = some e ∧ chain nodes e.next L

/-- One element of a queue: the address of its node, the address of its string and
the string. -/
structure Elem where
  node : Ptr
  vptr : Ptr
  str : Str
deriving DecidableEq

/-- The relation `Rep w E`: the handle is present and the queue is well formed with element
sequence `E`: `head` and `tail` are the first and the last node, `nr` is the number
of elements, the `next` links run through the nodes in order and end at `NULL`, each
node owns an allocated string, and no string is shared. -/
structure Rep (w : World) (E : List Elem) : Prop where
  handle : w.q = some ⟨(E.map Elem.node).head?, (E.map Elem.node).getLast?, E.length⟩
  links : chain w.nodes (E.map Elem.node).head? (E.map Elem.node)
  owns : ∀ x ∈ E, (∃ nx, w.nodes x.node = some ⟨some x.vptr, nx⟩) ∧ w.strs x.vptr = some x.str
  distinct : (E.map Elem.vptr).Nodup

/-- Insertion of `x` immediately before the first `y` with `le x y`, or at the end. -/
def insert_before {α : Type} (le : α → α → Bool) (x : α) : List α → List α
  | [] => [x]
  | y :: ys => if le x y then x :: y :: ys else y :: insert_before le x ys

/-- The insertion sort that folds `insert_before` over the input from the left. -/
def insertion_sort {α : Type} (le : α → α → Bool) (L : List α) : List α :=
  L.foldl (fun acc x => insert_before le x acc) []

/-- The order on elements induced by the comparator on their strings. -/
def elem_le (cmp : Str → Str → Int) (x y : Elem) : Bool := decide (cmp x.str y.str ≤ 0)

/-- Two heaps whose blocks agree on the `value` field, address by address. -/
def same_values (n1 n2 : Heap list_ele_t) : Prop :=
  ∀ a, (n2 a).map list_ele_t.value = (n1 a).map list_ele_t.value

/-- The order on nodes induced by the comparator on the strings `val` gives them. -/
def node_le (cmp : Str → Str → Int) (val : Ptr → Str) (a b : Ptr) : Bool :=
  decide (cmp (val a) (val b) ≤ 0)

/-- The string of each node of a state (empty where there is none to read). -/
def World.val (w : World) (a : Ptr) : Str := (read_value w.nodes w.strs a).getD []

/-! ## Concrete queues used as instances -/

/-- The string `"banana"`. -/
def banana : Str := [98, 97, 110, 97, 110, 97]

/-- The string `"apple"`. -/
def apple : Str := [97, 112, 112, 108, 101]

/-- The string `"cherry"`. -/
def cherry : Str := [99, 104, 101, 114, 114, 121]

/-- The string `"hello"`. -/
def hello : Str := [104, 101, 108, 108, 111]

/-- The heap with no block allocated. -/
def no_blocks {α : Type} : Heap α := fun _ => none

/-- The queue `[banana]`, its node at address 1 and its string at address 101. -/
def w_b : World :=
  ⟨some ⟨some 1, some 1, 1⟩, store no_blocks 1 (some ⟨some 101, none⟩),
    store no_blocks 101 (some banana)⟩

/-- Elements of `w_b`. -/
def E_b : List Elem := [⟨1, 101, banana⟩]

/-- The queue `[banana, apple]`, nodes at addresses 1 and 2. -/
def w_ba : World :=
  ⟨some ⟨some 1, some 2, 2⟩,
    store (store no_blocks 1 (some ⟨some 101, some 2⟩)) 2 (some ⟨some 102, none⟩),
    store (store no_blocks 101 (some banana)) 102 (some apple)⟩

/-- Elements of `w_ba`. -/
def E_ba : List Elem := [⟨1, 101, banana⟩, ⟨2, 102, apple⟩]

/-- The queue `[hello]`, its node at address 1 and its string at address 101. -/
def w_hello : World :=
  ⟨some ⟨some 1, some 1, 1⟩, store no_blocks 1 (some ⟨some 101, none⟩),
    store no_blocks 101 (some hello)⟩

/-- Elements of `w_hello`. -/
def E_hello : List Elem := [⟨1, 101, hello⟩]

/-- A buffer filled with the byte 255. -/
def buf_ff : Buf := fun _ => 255

/-- The string `"item9"`. -/
def item9 : Str := [105, 116, 101, 109, 57]

/-- The string `"item10"`. -/
def item10 : Str := [105, 116, 101, 109, 49, 48]

/-- The string `"item2"`. -/
def item2 : Str := [105, 116, 101, 109, 50]

/-- A string read as a number in base 256 after a leading digit 1. -/
def str_key (s : Str) : Nat := s.foldl (fun acc c => acc * 256 + c) 1

/-- A comparator for the instances: it compares the numbers `str_key` gives, so that
`item2 < item9 < item10`. -/
def key_cmp (a b : Str) : Int :=
  if str_key a < str_key b then -1 else if str_key a = str_key b then 0 else 1

/-- The queue `[item9, item10, item2]`, nodes at addresses 1, 2 and 3. -/
def w_items : World :=
  ⟨some ⟨some 1, some 3, 3⟩,
    store (store (store no_blocks 1 (some ⟨some 101, some 2⟩)) 2 (some ⟨some 102, some 3⟩)) 3
      (some ⟨some 103, none⟩),
    store (store (store no_blocks 101 (some item9)) 102 (some item10)) 103 (some item2)⟩

/-- Elements of `w_items`. -/
def E_items : List Elem := [⟨1, 101, item9⟩, ⟨2, 102, item10⟩, ⟨3, 103, item2⟩]

/-! ## Sequences of calls -/

/-- An allocation result is either a failure or an address that is not allocated. -/
def fresh {α : Type} (h : Heap α) : Option Ptr → Prop
  | none => True
  | some a => h a = none

/-- The insertion the specification of `sort` describes: `x` goes immediately before
the first element `y` of `acc` with `cmp x y ≤ 0`, or to the end of `acc` when there is
no such element. -/
def spec_ins (cmp : Str → Str → Int) (acc : List Elem) (x : Elem) : List Elem :=
  acc.takeWhile (fun y => decide (¬ cmp x.str y.str ≤ 0)) ++
    x :: acc.dropWhile (fun y => decide (¬ cmp x.str y.str ≤ 0))

/-- The sort the specification describes: the left fold of `spec_ins` over the
elements, starting from the empty list. -/
def spec_sort (cmp : Str → Str → Int) (E : List Elem) : List Elem :=
  E.foldl (spec_ins cmp) []

/-- The queue `[banana, banana]`, nodes at addresses 1 and 2, strings at 101 and 102. -/
def w_dup : World :=
  ⟨some ⟨some 1, some 2, 2⟩,
    store (store no_blocks 1 (some ⟨some 101, some 2⟩)) 2 (some ⟨some 102, none⟩),
    store (store no_blocks 101 (some banana)) 102 (some banana)⟩

/-- Elements of `w_dup`. -/
def E_dup : List Elem := [⟨1, 101, banana⟩, ⟨2, 102, banana⟩]

/-- A comparator for the instances that is antisymmetric as well: the lexicographic
order of the byte lists. -/
def lex_cmp (a b : Str) : Int :=
  if a ≤ b then (if b ≤ a then 0 else -1) else 1

/-- The blocks of the elements `E`, in the order `q_free` releases them: for each
element its string and then its node. -/
def elem_blocks : List Elem → List Freed
  | [] => []
  | x :: E => Freed.str x.vptr :: Freed.node x.node :: elem_blocks E

/-- The blocks a queue with elements `E` owns: the blocks of its elements and then the
queue structure. -/
def owned_blocks (E : List Elem) : List Freed := elem_blocks E ++ [Freed.queue]

/-! ## Heap lemmas -/

section heap
variable {α : Type}

@[simp] theorem store_same (h : Heap α) (a : Ptr) (x : Option α) : store h a x a = x := by
  simp [store]

@[simp] theorem store_other (h : Heap α) (a b : Ptr) (x : Option α) (hb : b ≠ a) :
    store h a x b = h b := by
  simp [store, hb]

theorem store_store (h : Heap α) (a : Ptr) (x y : Option α) :
    store (store h a x) a y = store h a y := by
  funext b; by_cases hb : b = a <;> simp [store, hb]

theorem store_self (h : Heap α) (a : Ptr) : store h a (h a) = h := by
  funext b; by_cases hb : b = a <;> simp [store, hb]

end heap

theorem chain_iff_lseg (nodes : Heap list_ele_t) :
    ∀ (L : List Ptr) (p : Option Ptr), chain nodes p L ↔ lseg nodes p L none
  | [], p => by simp [chain, lseg]
  | a :: L, p => by
    simp only [chain, lseg]
    constructor
    · rintro ⟨hp, e, he, hc⟩
      exact ⟨hp, e, he, (chain_iff_lseg nodes L _).1 hc⟩
    · rintro ⟨hp, e, he, hc⟩
      exact ⟨hp, e, he, (chain_iff_lseg nodes L _).2 hc⟩

theorem lseg_frame {nodes nodes1 : Heap list_ele_t} :
    ∀ {L : List Ptr} {p r : Option Ptr}, (∀ a ∈ L, nodes1 a = nodes a) →
      lseg nodes p L r → lseg nodes1 p L r
  | [], _, _, _, h => h
  | a :: L, p, r, hf, h => by
    obtain ⟨hp, e, he, hc⟩ := h
    refine ⟨hp, e, ?_, lseg_frame (fun b hb => hf b (List.mem_cons_of_mem _ hb)) hc⟩
    rw [hf a (List.mem_cons_self _ _)]; exact he

theorem chain_frame {nodes nodes1 : Heap list_ele_t} {L : List Ptr} {p : Option Ptr}
    (hf : ∀ a ∈ L, nodes1 a = nodes a) (h : chain nodes p L) : chain nodes1 p L :=
  (chain_iff_lseg _ _ _).2 (lseg_frame hf ((chain_iff_lseg _ _ _).1 h))

theorem lseg_append (nodes : Heap list_ele_t) :
    ∀ (L1 L2 : List Ptr) (p r : Option Ptr),
      lseg nodes p (L1 ++ L2) r ↔ ∃ m, lseg nodes p L1 m ∧ lseg nodes m L2 r
  | [], L2, p, r => by simp [lseg]
  | a :: L1, L2, p, r => by
    simp only [List.cons_append, lseg]
    constructor
    · rintro ⟨hp, e, he, hc⟩
      obtain ⟨m, h1, h2⟩ := (lseg_append nodes L1 L2 _ _).1 hc
      exact ⟨m, ⟨hp, e, he, h1⟩, h2⟩
    · rintro ⟨m, ⟨hp, e, he, h1⟩, h2⟩
      exact ⟨hp, e, he, (lseg_append nodes L1 L2 _ _).2 ⟨m, h1, h2⟩⟩

theorem chain_head {nodes : Heap list_ele_t} {L : List Ptr} {p : Option Ptr}
    (h : chain nodes p L) : p = L.head? := by
  cases L with
  | nil => exact h
  | cons a L => exact h.1

theorem chain_det {nodes : Heap list_ele_t} :
    ∀ {L1 L2 : List Ptr} {p : Option Ptr}, chain nodes p L1 → chain nodes p L2 → L1 = L2
  | [], [], _, _, _ => rfl
  | [], b :: L2, p, h1, h2 => by
    simp only [chain] at h1 h2; rw [h1] at h2; exact absurd h2.1 (by simp)
  | a :: L1, [], p, h1, h2 => by
    simp only [chain] at h1 h2; rw [h2] at h1; exact absurd h1.1 (by simp)
  | a :: L1, b :: L2, p, h1, h2 => by
    obtain ⟨hp1, e1, he1, hc1⟩ := h1
    obtain ⟨hp2, e2, he2, hc2⟩ := h2
    have hab : a = b := by rw [hp1] at hp2; exact Option.some.inj hp2
    subst hab
    rw [he1] at he2
    have : e1 = e2 := Option.some.inj he2
    subst this
    rw [chain_det hc1 hc2]

theorem chain_suffix {nodes : Heap list_ele_t} :
    ∀ (L1 : List Ptr) {L2 : List Ptr} {p : Option Ptr}, chain nodes p (L1 ++ L2) →
      ∃ m, chain nodes m L2
  | [], _, p, h => ⟨p, h⟩
  | _ :: L1, _, _, h => by
    obtain ⟨_, e, _, hc⟩ := h
    exact chain_suffix L1 hc

theorem chain_nodup {nodes : Heap list_ele_t} :
    ∀ {L : List Ptr} {p : Option Ptr}, chain nodes p L → L.Nodup
  | [], _, _ => List.nodup_nil
  | a :: L, p, h => by
    obtain ⟨hp, e, he, hc⟩ := h
    refine List.nodup_cons.2 ⟨?_, chain_nodup hc⟩
    intro ha
    obtain ⟨L1, L2, rfl⟩ := List.append_of_mem ha
    obtain ⟨m, hm⟩ := chain_suffix L1 hc
    obtain ⟨hm1, e2, he2, hc2⟩ := hm
    rw [he] at he2
    have : e = e2 := Option.some.inj he2
    subst this
    have := chain_det hc hc2
    have hlen := congrArg List.length this
    simp at hlen
    omega

/-! ## Well-formed queues -/

theorem Rep.node_alloc {w : World} {E : List Elem} (h : Rep w E) {x : Elem} (hx : x ∈ E) :
    w.nodes x.node ≠ none := by
  obtain ⟨⟨nx, hn⟩, _⟩ := h.owns x hx
  rw [hn]; simp

theorem Rep.fresh_node {w : World} {E : List Elem} (h : Rep w E) {a : Ptr}
    (ha : w.nodes a = none) : a ∉ E.map Elem.node := by
  intro hmem
  obtain ⟨x, hx, rfl⟩ := List.mem_map.1 hmem
  exact h.node_alloc hx ha

theorem Rep.fresh_str {w : World} {E : List Elem} (h : Rep w E) {v : Ptr}
    (hv : w.strs v = none) : v ∉ E.map Elem.vptr := by
  intro hmem
  obtain ⟨x, hx, rfl⟩ := List.mem_map.1 hmem
  have := (h.owns x hx).2
  rw [hv] at this; simp at this

theorem Rep.nodup {w : World} {E : List Elem} (h : Rep w E) : (E.map Elem.node).Nodup :=
  chain_nodup h.links

theorem Rep.size {w : World} {E : List Elem} (h : Rep w E) : q_size w = E.length := by
  simp [q_size, h.handle]

theorem Rep.head_eq {w : World} {E : List Elem} (h : Rep w E) :
    w.head = (E.map Elem.node).head? := by
  simp [World.head, h.handle]

theorem Rep.tail_eq {w : World} {E : List Elem} (h : Rep w E) :
    w.tail = (E.map Elem.node).getLast? := by
  simp [World.tail, h.handle]

/-- Full description of a successful `q_insert_head`. -/
theorem insert_head_spec {w : World} {E : List Elem} (s : Str) (newh v : Ptr)
    (hrep : Rep w E) (hm : w.nodes newh = none) (hd : w.strs v = none) :
    ∃ w1, q_insert_head w s (some newh) (some v) = some (true, w1) ∧
      Rep w1 (⟨newh, v, s⟩ :: E) ∧
      w1.nodes = store w.nodes newh (some ⟨some v, w.head⟩) ∧
      w1.strs = store w.strs v (some s) := by
  have hfn := hrep.fresh_node hm
  have hfv := hrep.fresh_str hd
  refine ⟨⟨some ⟨some newh, ((⟨newh, v, s⟩ :: E : List Elem).map Elem.node).getLast?,
      ((⟨newh, v, s⟩ :: E : List Elem).length : Nat)⟩,
      store w.nodes newh (some ⟨some v, w.head⟩), store w.strs v (some s)⟩, ?_, ?_, rfl, rfl⟩
  · simp only [q_insert_head, hrep.handle, store_store, hrep.head_eq]
    cases E with
    | nil => simp
    | cons x E => simp [List.getLast?_cons_cons]
  · have hhead := hrep.head_eq
    constructor
    · simp
    · refine ⟨rfl, ⟨some v, w.head⟩, by simp, ?_⟩
      simp only [hhead]
      refine chain_frame ?_ hrep.links
      intro a ha
      exact store_other _ _ _ _ (fun h => hfn (h ▸ ha))
    · intro x hx
      rcases List.mem_cons.1 hx with rfl | hx
      · exact ⟨⟨w.head, by simp⟩, by simp⟩
      · obtain ⟨⟨nx, hn⟩, hs⟩ := hrep.owns x hx
        have h1 : x.node ≠ newh := fun h => hfn (h ▸ List.mem_map_of_mem _ hx)
        have h2 : x.vptr ≠ v := fun h => hfv (h ▸ List.mem_map_of_mem _ hx)
        exact ⟨⟨nx, by simp [store_other _ _ _ _ h1, hn]⟩, by simp [store_other _ _ _ _ h2, hs]⟩
    · exact List.nodup_cons.2 ⟨hfv, hrep.distinct⟩

theorem lseg_set_last {nodes : Heap list_ele_t} {L : List Ptr} {t : Ptr} {p r : Option Ptr}
    (h : lseg nodes p (L ++ [t]) r) (hnd : (L ++ [t]).Nodup) (r1 : Option Ptr) :
    ∃ et, nodes t = some et ∧
      lseg (store nodes t (some ⟨et.value, r1⟩)) p (L ++ [t]) r1 := by
  obtain ⟨m, h1, h2⟩ := (lseg_append nodes L [t] p r).1 h
  obtain ⟨hm, et, het, _⟩ := h2
  refine ⟨et, het, (lseg_append _ L [t] p r1).2 ⟨m, ?_, hm, ⟨et.value, r1⟩, by simp, rfl⟩⟩
  refine lseg_frame ?_ h1
  intro a ha
  refine store_other _ _ _ _ ?_
  rintro rfl
  exact (List.nodup_append.1 hnd).2.2 ha (List.mem_singleton_self _)

/-- Full description of a successful `q_insert_tail`. -/
theorem insert_tail_spec {w : World} {E : List Elem} (s : Str) (newh v : Ptr)
    (hrep : Rep w E) (hm : w.nodes newh = none) (hd : w.strs v = none) :
    ∃ w1, q_insert_tail w s (some newh) (some v) = some (true, w1) ∧
      Rep w1 (E ++ [⟨newh, v, s⟩]) ∧
      w1.nodes newh = some ⟨some v, none⟩ ∧
      (∀ a, a ≠ newh → some a ≠ w.tail → w1.nodes a = w.nodes a) ∧
      w1.strs = store w.strs v (some s) := by
  have hfn := hrep.fresh_node hm
  have hfv := hrep.fresh_str hd
  have htail := hrep.tail_eq
  have hdist : ((E ++ [⟨newh, v, s⟩] : List Elem).map Elem.vptr).Nodup := by
    rw [List.map_append, List.nodup_append]
    refine ⟨hrep.distinct, by simp, ?_⟩
    intro a ha hb
    simp only [List.map_cons, List.map_nil, List.mem_singleton] at hb
    exact hfv (hb ▸ ha)
  rcases List.eq_nil_or_concat E with rfl | ⟨E0, x, hE⟩
  · refine ⟨⟨some ⟨some newh, some newh, (1 : Nat)⟩,
      store w.nodes newh (some ⟨some v, none⟩), store w.strs v (some s)⟩, ?_, ?_, by simp, ?_, rfl⟩
    · simp [q_insert_tail, hrep.handle, store_store]
    · constructor
      · simp
      · exact ⟨rfl, ⟨some v, none⟩, by simp, rfl⟩
      · intro y hy
        simp only [List.nil_append, List.mem_singleton] at hy
        subst hy
        exact ⟨⟨none, by simp⟩, by simp⟩
      · exact hdist
    · intro a ha _
      exact store_other _ _ _ _ ha
  · rw [List.concat_eq_append] at hE
    subst hE
    have hx : x ∈ E0 ++ [x] := by simp
    obtain ⟨⟨nx, hnx⟩, hsx⟩ := hrep.owns x hx
    have hxn : x.node ≠ newh := fun h => hfn (h ▸ List.mem_map_of_mem _ hx)
    have hlast : ((E0 ++ [x]).map Elem.node).getLast? = some x.node := by simp
    have hnd := hrep.nodup
    rw [List.map_append] at hnd
    have hlinks := (chain_iff_lseg _ _ _).1 hrep.links
    rw [List.map_append] at hlinks
    simp only [List.map_cons, List.map_nil] at hlinks hnd
    obtain ⟨nodes1, hnodes1⟩ : ∃ n, n = store w.nodes newh (some ⟨some v, none⟩) := ⟨_, rfl⟩
    have hlinks1 : lseg nodes1 ((E0.map Elem.node ++ [x.node]).head?)
        (E0.map Elem.node ++ [x.node]) none := by
      refine lseg_frame ?_ hlinks
      intro a ha
      rw [hnodes1]
      refine store_other _ _ _ _ ?_
      rintro rfl
      exact hfn (by simpa using ha)
    obtain ⟨et, het, hseg⟩ := lseg_set_last hlinks1 hnd (some newh)
    have het2 : et = ⟨some x.vptr, nx⟩ := by
      rw [hnodes1, store_other _ _ _ _ hxn, hnx] at het
      exact (Option.some.inj het).symm
    subst het2
    obtain ⟨nodes2, hnodes2⟩ : ∃ n, n = store nodes1 x.node (some ⟨some x.vptr, some newh⟩) :=
      ⟨_, rfl⟩
    rw [← hnodes2] at hseg
    have hnew : nodes2 newh = some ⟨some v, none⟩ := by
      rw [hnodes2, store_other _ _ _ _ (Ne.symm hxn), hnodes1, store_same]
    refine ⟨⟨some ⟨((E0 ++ [x]).map Elem.node).head?, some newh, ((E0 ++ [x]).length : Nat) + 1⟩,
      nodes2, store w.strs v (some s)⟩, ?_, ?_, hnew, ?_, rfl⟩
    · simp only [q_insert_tail, hrep.handle, store_store, hlast]
      rw [← hnodes1, het, hnodes2]
    · constructor
      · have h1 : ((E0 ++ [x] ++ [⟨newh, v, s⟩] : List Elem).map Elem.node).head? =
            ((E0 ++ [x]).map Elem.node).head? := by
          cases E0 <;> simp
        simp only [h1]
        simp
        ring
      · have h1 : ((E0 ++ [x] ++ [⟨newh, v, s⟩] : List Elem).map Elem.node) =
            (E0.map Elem.node ++ [x.node]) ++ [newh] := by simp
        have h2 : ((E0.map Elem.node ++ [x.node]) ++ [newh]).head? =
            (E0.map Elem.node ++ [x.node]).head? := by
          cases E0 <;> simp
        rw [h1, h2, chain_iff_lseg, lseg_append]
        exact ⟨some newh, hseg, rfl, _, hnew, rfl⟩
      · intro y hy
        rcases List.mem_append.1 hy with hy | hy
        · obtain ⟨⟨ny, hny⟩, hsy⟩ := hrep.owns y hy
          have hyn : y.node ≠ newh := fun h => hfn (h ▸ List.mem_map_of_mem _ hy)
          have hyv : y.vptr ≠ v := fun h => hfv (h ▸ List.mem_map_of_mem _ hy)
          refine ⟨?_, by simp [store_other _ _ _ _ hyv, hsy]⟩
          by_cases hyx : y.node = x.node
          · exact ⟨some newh, by
              have : y.vptr = x.vptr := by
                rw [hyx, hnx] at hny
                have := Option.some.inj hny
                simp at this
                exact this.1.symm
              show nodes2 y.node = _
              rw [hnodes2, hyx, store_same, this]⟩
          · exact ⟨ny, by
              show nodes2 y.node = _
              rw [hnodes2, store_other _ _ _ _ hyx, hnodes1, store_other _ _ _ _ hyn, hny]⟩
        · simp only [List.mem_singleton] at hy
          subst hy
          exact ⟨⟨none, hnew⟩, by simp⟩
      · exact hdist
    · intro a ha hat
      rw [htail, hlast] at hat
      have : a ≠ x.node := fun h => hat (by rw [h])
      show nodes2 a = _
      rw [hnodes2, store_other _ _ _ _ this, hnodes1, store_other _ _ _ _ ha]

theorem rep_w_b : Rep w_b E_b := by
  constructor <;> simp [w_b, E_b, chain, store]

theorem rep_w_ba : Rep w_ba E_ba := by
  constructor <;> simp [w_ba, E_ba, chain, store]

theorem rep_w_hello : Rep w_hello E_hello := by
  constructor <;> simp [w_hello, E_hello, chain, store]

/-- Full description of a successful `q_remove_head`. -/
theorem remove_head_spec {w : World} {x : Elem} {E : List Elem} (sp : Option Buf)
    (bufsize : Nat) (hrep : Rep w (x :: E)) :
    ∃ w1, q_remove_head w sp bufsize = some (true, w1,
        sp.map fun buf => strncpy (memset buf 0 bufsize) x.str (size_sub bufsize 1)) ∧
      Rep w1 E ∧
      w1.nodes = store w.nodes x.node none ∧
      w1.strs = store w.strs x.vptr none := by
  obtain ⟨⟨nx, hnx⟩, hsx⟩ := hrep.owns x (List.mem_cons_self _ _)
  have hlinks := hrep.links
  simp only [List.map_cons, List.head?_cons, chain] at hlinks
  obtain ⟨_, e, he, hc⟩ := hlinks
  rw [hnx] at he
  have he2 := Option.some.inj he
  subst he2
  simp only at hc
  have hnx2 := chain_head hc
  have hnd := hrep.nodup
  simp only [List.map_cons, List.nodup_cons] at hnd
  have hdist := hrep.distinct
  simp only [List.map_cons, List.nodup_cons] at hdist
  have hcopy : copy_out w.strs (some x.vptr) sp bufsize = some
      (sp.map fun buf => strncpy (memset buf 0 bufsize) x.str (size_sub bufsize 1)) := by
    cases sp <;> simp [copy_out, hsx]
  have htail : (if some x.node = ((x :: E).map Elem.node).getLast? then none
      else ((x :: E).map Elem.node).getLast?) = (E.map Elem.node).getLast? := by
    cases E with
    | nil => simp
    | cons y E =>
      simp only [List.map_cons, List.getLast?_cons_cons]
      rw [if_neg]
      intro h
      have hmem := List.mem_of_getLast?_eq_some h.symm
      exact hnd.1 (by simpa using hmem)
  refine ⟨⟨some ⟨(E.map Elem.node).head?, (E.map Elem.node).getLast?, (E.length : Nat)⟩,
    store w.nodes x.node none, store w.strs x.vptr none⟩, ?_, ?_, rfl, rfl⟩
  · simp only [q_remove_head, hrep.handle, List.map_cons, List.head?_cons, hnx, hcopy, free,
      hsx]
    simp only [List.map_cons] at htail
    rw [htail, hnx2]
    simp
  · constructor
    · rfl
    · refine chain_frame ?_ (hnx2 ▸ hc)
      intro a ha
      exact store_other _ _ _ _ (fun h => hnd.1 (h ▸ ha))
    · intro y hy
      obtain ⟨⟨ny, hny⟩, hsy⟩ := hrep.owns y (List.mem_cons_of_mem _ hy)
      have h1 : y.node ≠ x.node := fun h => hnd.1 (h ▸ List.mem_map_of_mem _ hy)
      have h2 : y.vptr ≠ x.vptr := fun h => hdist.1 (h ▸ List.mem_map_of_mem _ hy)
      exact ⟨⟨ny, by simp [store_other _ _ _ _ h1, hny]⟩, by simp [store_other _ _ _ _ h2, hsy]⟩
    · exact hdist.2

/-! ## Insertion and removal -/

/-- C1: on a well-formed queue with elements `E`, when `malloc` returns the fresh node
`newh` and `strdup` the fresh string block `v`, `q_insert_head` returns true and the
queue is well formed with elements `(newh, v, s) :: E`; the count grows by exactly 1,
`head` is the new node, and `tail` is the new node exactly when `E` was empty and is
unchanged otherwise. -/
theorem q_insert_head_ok (w : World) (E : List Elem) (s : Str) (newh v : Ptr)
    (hrep : Rep w E) (hm : w.nodes newh = none) (hd : w.strs v = none) :
    ∃ w1, q_insert_head w s (some newh) (some v) = some (true, w1) ∧
      Rep w1 (⟨newh, v, s⟩ :: E) ∧
      q_size w1 = q_size w + 1 ∧
      w1.head = some newh ∧
      (w1.tail = some newh ↔ E = []) ∧
      (E ≠ [] → w1.tail = w.tail) := by
  obtain ⟨w1, hrun, hrep1, _, _⟩ := insert_head_spec s newh v hrep hm hd
  have hold : E ≠ [] → w1.tail = w.tail := by
    intro hE
    rw [hrep1.tail_eq, hrep.tail_eq]
    cases E with
    | nil => exact absurd rfl hE
    | cons y E => simp [List.getLast?_cons_cons]
  refine ⟨w1, hrun, hrep1, ?_, ?_, ⟨?_, ?_⟩, hold⟩
  · rw [hrep1.size, hrep.size]; simp
  · rw [hrep1.head_eq]; simp
  · intro htail
    by_contra hE
    rw [hold hE, hrep.tail_eq] at htail
    exact hrep.fresh_node hm (List.mem_of_getLast?_eq_some htail)
  · rintro rfl
    rw [hrep1.tail_eq]; simp

theorem q_insert_head_ok_witness :
    (Rep w_ba E_ba ∧ w_ba.nodes 3 = none ∧ w_ba.strs 103 = none) ∧
    ∃ w1, q_insert_head w_ba cherry (some 3) (some 103) = some (true, w1) ∧
      Rep w1 (⟨3, 103, cherry⟩ :: E_ba) ∧
      q_size w1 = q_size w_ba + 1 ∧
      w1.head = some 3 ∧
      (w1.tail = some 3 ↔ E_ba = []) ∧
      (E_ba ≠ [] → w1.tail = w_ba.tail) :=
  ⟨⟨rep_w_ba, by simp [w_ba, store, no_blocks], by simp [w_ba, store, no_blocks]⟩,
    q_insert_head_ok w_ba E_ba cherry 3 103 rep_w_ba (by simp [w_ba, store, no_blocks])
      (by simp [w_ba, store, no_blocks])⟩

/-- C2: on a well-formed queue with elements `E`, when `malloc` returns the fresh node
`newh` and `strdup` the fresh string block `v`, `q_insert_tail` returns true and the
queue is well formed with elements `E ++ [(newh, v, s)]`; the new node has `next = NULL`,
the count grows by exactly 1, `tail` is the new node, and `head` is the new node exactly
when `E` was empty and is unchanged otherwise. -/
theorem q_insert_tail_ok (w : World) (E : List Elem) (s : Str) (newh v : Ptr)
    (hrep : Rep w E) (hm : w.nodes newh = none) (hd : w.strs v = none) :
    ∃ w1, q_insert_tail w s (some newh) (some v) = some (true, w1) ∧
      Rep w1 (E ++ [⟨newh, v, s⟩]) ∧
      w1.nodes newh = some ⟨some v, none⟩ ∧
      q_size w1 = q_size w + 1 ∧
      w1.tail = some newh ∧
      (w1.head = some newh ↔ E = []) ∧
      (E ≠ [] → w1.head = w.head) := by
  obtain ⟨w1, hrun, hrep1, hnew, _, _⟩ := insert_tail_spec s newh v hrep hm hd
  have hold : E ≠ [] → w1.head = w.head := by
    intro hE
    rw [hrep1.head_eq, hrep.head_eq]
    cases E with
    | nil => exact absurd rfl hE
    | cons y E => simp
  refine ⟨w1, hrun, hrep1, hnew, ?_, ?_, ⟨?_, ?_⟩, hold⟩
  · rw [hrep1.size, hrep.size]; simp
  · rw [hrep1.tail_eq]; simp
  · intro hhead
    by_contra hE
    rw [hold hE, hrep.head_eq] at hhead
    exact hrep.fresh_node hm (List.mem_of_mem_head? hhead)
  · rintro rfl
    rw [hrep1.head_eq]; simp

theorem q_insert_tail_ok_witness :
    (Rep w_b E_b ∧ w_b.nodes 2 = none ∧ w_b.strs 102 = none) ∧
    ∃ w1, q_insert_tail w_b apple (some 2) (some 102) = some (true, w1) ∧
      Rep w1 (E_b ++ [⟨2, 102, apple⟩]) ∧
      w1.nodes 2 = some ⟨some 102, none⟩ ∧
      q_size w1 = q_size w_b + 1 ∧
      w1.tail = some 2 ∧
      (w1.head = some 2 ↔ E_b = []) ∧
      (E_b ≠ [] → w1.head = w_b.head) :=
  ⟨⟨rep_w_b, by simp [w_b, store, no_blocks], by simp [w_b, store, no_blocks]⟩,
    q_insert_tail_ok w_b E_b apple 2 102 rep_w_b (by simp [w_b, store, no_blocks])
      (by simp [w_b, store, no_blocks])⟩

theorem size_sub_one {c : Nat} (hc1 : 1 ≤ c) (hc2 : c < 2 ^ SIZE_BITS) : size_sub c 1 = c - 1 := by
  simp only [size_sub, SIZE_BITS] at *
  norm_num at *
  omega

theorem size_sub_zero_one : size_sub 0 1 = 2 ^ SIZE_BITS - 1 := by
  simp only [size_sub, SIZE_BITS]
  norm_num

/-- C5: on a well-formed queue whose first element has value `x.str`, `q_remove_head`
with a buffer `buf` and a capacity `1 ≤ c < 2 ^ SIZE_BITS` returns true and leaves in the
first `c` bytes of the buffer the first `min (length x.str) (c - 1)` bytes of `x.str`
followed by zero bytes; byte `c - 1` is zero, the bytes at offsets `≥ c` are unchanged,
and the whole value is in the buffer when its length is at most `c - 1`. -/
theorem q_remove_head_copy (w : World) (x : Elem) (E : List Elem) (buf : Buf) (c : Nat)
    (hrep : Rep w (x :: E)) (hc1 : 1 ≤ c) (hc2 : c < 2 ^ SIZE_BITS) :
    ∃ w1 buf1, q_remove_head w (some buf) c = some (true, w1, some buf1) ∧
      (List.range c).map buf1 =
        x.str.take (min x.str.length (c - 1)) ++
          List.replicate (c - min x.str.length (c - 1)) 0 ∧
      buf1 (c - 1) = 0 ∧
      (∀ i, c ≤ i → buf1 i = buf i) ∧
      (x.str.length ≤ c - 1 →
        (List.range x.str.length).map buf1 = x.str ∧ buf1 x.str.length = 0) := by
  obtain ⟨w1, hrun, _, _, _⟩ := remove_head_spec (some buf) c hrep
  rw [size_sub_one hc1 hc2] at hrun
  refine ⟨w1, _, hrun, ?_, ?_, ?_, ?_⟩
  · have hlen : (x.str.take (min x.str.length (c - 1))).length = min x.str.length (c - 1) := by
      rw [List.length_take]
      exact min_eq_left (min_le_left _ _)
    apply List.ext_getElem
    · rw [List.length_append, hlen]
      simp
    · intro i h1 h2
      simp only [List.length_map, List.length_range] at h1
      simp only [List.getElem_map, List.getElem_range, strncpy, memset]
      by_cases hi : i < min x.str.length (c - 1)
      · have hi1 : i < c - 1 := lt_of_lt_of_le hi (min_le_right _ _)
        have hi2 : i < x.str.length := lt_of_lt_of_le hi (min_le_left _ _)
        rw [if_pos hi1, List.getElem_append_left (by rw [hlen]; exact hi)]
        simp [List.getD_eq_getElem?_getD, List.getElem?_eq_getElem hi2]
      · rw [List.getElem_append_right (by rw [hlen]; exact not_lt.1 hi)]
        simp only [List.getElem_replicate]
        by_cases hi1 : i < c - 1
        · rw [if_pos hi1]
          have hi2 : x.str.length ≤ i := by
            rcases le_total x.str.length (c - 1) with h | h
            · rw [min_eq_left h] at hi; omega
            · rw [min_eq_right h] at hi; omega
          simp [List.getD_eq_getElem?_getD, List.getElem?_eq_none hi2]
        · rw [if_neg hi1, if_pos h1]
  · simp only [strncpy, memset]
    rw [if_neg (by omega), if_pos (by omega)]
  · intro i hi
    simp only [strncpy, memset]
    rw [if_neg (by omega), if_neg (by omega)]
  · intro hlen
    constructor
    · apply List.ext_getElem
      · simp
      · intro i h1 h2
        simp only [List.getElem_map, List.getElem_range, strncpy]
        rw [if_pos (by omega)]
        simp [List.getD_eq_getElem?_getD, List.getElem?_eq_getElem h2]
    · simp only [strncpy, memset]
      by_cases h : x.str.length < c - 1
      · rw [if_pos h]
        simp [List.getD_eq_getElem?_getD]
      · rw [if_neg h, if_pos (by omega)]

theorem q_remove_head_copy_witness :
    (Rep w_hello (⟨1, 101, hello⟩ :: []) ∧ 1 ≤ 4 ∧ 4 < 2 ^ SIZE_BITS) ∧
    ∃ w1 buf1, q_remove_head w_hello (some buf_ff) 4 = some (true, w1, some buf1) ∧
      (List.range 4).map buf1 = [104, 101, 108, 0] ∧
      buf1 3 = 0 ∧
      (∀ i, 4 ≤ i → buf1 i = buf_ff i) := by
  have hc2 : 4 < 2 ^ SIZE_BITS := by simp [SIZE_BITS]
  refine ⟨⟨rep_w_hello, by decide, hc2⟩, ?_⟩
  obtain ⟨w1, buf1, h1, h2, h3, h4, _⟩ :=
    q_remove_head_copy w_hello ⟨1, 101, hello⟩ [] buf_ff 4 rep_w_hello (by decide) hc2
  exact ⟨w1, buf1, h1, by simpa [hello] using h2, h3, h4⟩

/-- C6: the run of `q_remove_head` on the queue `[hello]` with a buffer filled with the
byte 255 and `bufsize = 0`: the call returns true and has written the value and NUL
bytes into the buffer, since the `strncpy` length `bufsize - 1` wraps around to
`2 ^ SIZE_BITS - 1`. -/
theorem q_remove_head_zero_bufsize_writes :
    ∃ w1 buf1, q_remove_head w_hello (some buf_ff) 0 = some (true, w1, some buf1) ∧
      (List.range 8).map buf1 = [104, 101, 108, 108, 111, 0, 0, 0] ∧
      (List.range 8).map buf_ff = [255, 255, 255, 255, 255, 255, 255, 255] ∧
      (∀ i, i < 2 ^ SIZE_BITS - 1 → buf1 i = hello.getD i 0) := by
  obtain ⟨w1, hrun, _, _, _⟩ := remove_head_spec (some buf_ff) 0 rep_w_hello
  rw [size_sub_zero_one] at hrun
  refine ⟨w1, _, hrun, ?_, ?_, ?_⟩
  · simp [strncpy, SIZE_BITS, List.range, List.range.loop, hello]
  · simp [buf_ff, List.range, List.range.loop]
  · intro i hi
    simp [strncpy, hi]

/-! ## Reversal -/

theorem same_values_refl (n : Heap list_ele_t) : same_values n n := fun _ => rfl

theorem same_values_trans {n1 n2 n3 : Heap list_ele_t} (h12 : same_values n1 n2)
    (h23 : same_values n2 n3) : same_values n1 n3 := fun a => (h23 a).trans (h12 a)

theorem same_values_store {n : Heap list_ele_t} {a : Ptr} {e : list_ele_t}
    (he : n a = some e) (p : Option Ptr) : same_values n (store n a (some ⟨e.value, p⟩)) := by
  intro b
  by_cases hb : b = a
  · subst hb; simp [he]
  · rw [store_other _ _ _ _ hb]

theorem same_values_node {n1 n2 : Heap list_ele_t} (h : same_values n1 n2) {a : Ptr}
    {v nx : Option Ptr} (ha : n1 a = some ⟨v, nx⟩) : ∃ nx2, n2 a = some ⟨v, nx2⟩ := by
  have := h a
  rw [ha] at this
  cases h2 : n2 a with
  | none => rw [h2] at this; simp at this
  | some e =>
    rw [h2] at this
    simp only [Option.map_some', Option.some.injEq] at this
    exact ⟨e.next, by rw [← this]⟩

theorem chain_next {nodes : Heap list_ele_t} :
    ∀ {L : List Ptr} {p : Option Ptr}, chain nodes p L → ∀ (i : Nat) (a : Ptr),
      L[i]? = some a → ∃ e, nodes a = some e ∧ e.next = L[i + 1]?
  | [], _, _, i, a, hi => by simp at hi
  | b :: L, p, h, 0, a, hi => by
    obtain ⟨_, e, he, hc⟩ := h
    simp only [List.getElem?_cons_zero, Option.some.injEq] at hi
    subst hi
    refine ⟨e, he, ?_⟩
    rw [chain_head hc]
    cases L <;> simp
  | b :: L, p, h, i + 1, a, hi => by
    obtain ⟨_, e, he, hc⟩ := h
    simp only [List.getElem?_cons_succ] at hi
    obtain ⟨e2, he2, hn⟩ := chain_next hc i a hi
    exact ⟨e2, he2, by simpa using hn⟩

/-- A well-formed queue determines the state, given the strings and the nodes outside
the queue. -/
theorem rep_ext {w w1 : World} {E : List Elem} (h : Rep w E) (h1 : Rep w1 E)
    (hs : w1.strs = w.strs) (hf : ∀ a, a ∉ E.map Elem.node → w1.nodes a = w.nodes a) :
    w1 = w := by
  have hq : w1.q = w.q := by rw [h.handle, h1.handle]
  have hn : w1.nodes = w.nodes := by
    funext a
    by_cases ha : a ∈ E.map Elem.node
    · obtain ⟨i, hi⟩ := List.getElem?_of_mem ha
      obtain ⟨e, he, hen⟩ := chain_next h.links i a hi
      obtain ⟨e1, he1, hen1⟩ := chain_next h1.links i a hi
      obtain ⟨x, hx, rfl⟩ := List.mem_map.1 ha
      obtain ⟨⟨nx, hnx⟩, _⟩ := h.owns x hx
      obtain ⟨⟨nx1, hnx1⟩, _⟩ := h1.owns x hx
      rw [hnx] at he
      rw [hnx1] at he1
      have e_eq := Option.some.inj he
      have e1_eq := Option.some.inj he1
      subst e_eq e1_eq
      simp only at hen hen1
      rw [hnx, hnx1, hen, hen1]
    · exact hf a ha
  cases w; cases w1
  simp only at hq hn hs
  subst hq hn hs
  rfl

/-- The loop of `q_reverse` followed by the assignment `cur->next = prev`. -/
theorem reverse_loop_spec :
    ∀ (rest : List Ptr) (c : Ptr) (done : List Ptr) (nodes : Heap list_ele_t)
      (prev : Option Ptr) (fuel : Nat),
      chain nodes (some c) (c :: rest) → chain nodes prev done →
      (∀ a ∈ done, a ∉ c :: rest) → rest.length < fuel →
      ∃ nodes1 cur prev1 e, reverse_loop fuel nodes c prev = some (nodes1, cur, prev1) ∧
        nodes1 cur = some e ∧
        some cur = (c :: rest).getLast? ∧
        chain (store nodes1 cur (some ⟨e.value, prev1⟩)) (some cur)
          ((c :: rest).reverse ++ done) ∧
        (∀ a, a ∉ c :: rest → store nodes1 cur (some ⟨e.value, prev1⟩) a = nodes a) ∧
        same_values nodes (store nodes1 cur (some ⟨e.value, prev1⟩))
  | [], c, done, nodes, prev, fuel, hc, hd, hdis, hfuel => by
    obtain ⟨_, e, he, hnil⟩ := hc
    simp only [chain] at hnil
    obtain ⟨f, rfl⟩ : ∃ f, fuel = f + 1 := ⟨fuel - 1, by omega⟩
    refine ⟨nodes, c, prev, e, ?_, he, rfl, ?_, ?_, same_values_store he prev⟩
    · simp [reverse_loop, he, hnil]
    · refine ⟨rfl, _, store_same _ _ _, ?_⟩
      refine chain_frame ?_ hd
      intro a ha
      exact store_other _ _ _ _ (fun h => hdis a ha (by simp [h]))
    · intro a ha
      exact store_other _ _ _ _ (fun h => ha (by simp [h]))
  | d :: rest, c, done, nodes, prev, fuel, hc, hd, hdis, hfuel => by
    have hnd := chain_nodup hc
    obtain ⟨_, e, he, hrest⟩ := hc
    have hnext : e.next = some d := chain_head hrest
    rw [hnext] at hrest
    obtain ⟨f, rfl⟩ : ∃ f, fuel = f + 1 := ⟨fuel - 1, by omega⟩
    have hcd : c ∉ d :: rest := (List.nodup_cons.1 hnd).1
    have hc1 : chain (store nodes c (some ⟨e.value, prev⟩)) (some d) (d :: rest) := by
      refine chain_frame ?_ hrest
      intro a ha
      exact store_other _ _ _ _ (fun h => hcd (h ▸ ha))
    have hd1 : chain (store nodes c (some ⟨e.value, prev⟩)) (some c) (c :: done) := by
      refine ⟨rfl, _, store_same _ _ _, ?_⟩
      refine chain_frame ?_ hd
      intro a ha
      exact store_other _ _ _ _ (fun h => hdis a ha (by simp [h]))
    have hdis1 : ∀ a ∈ c :: done, a ∉ d :: rest := by
      intro a ha
      rcases List.mem_cons.1 ha with rfl | ha
      · exact hcd
      · exact fun h => hdis a ha (List.mem_cons_of_mem _ h)
    obtain ⟨nodes1, cur, prev1, e1, hrun, he1, hlast, hchain, hframe, hval⟩ :=
      reverse_loop_spec rest d (c :: done) _ (some c) f hc1 hd1 hdis1
        (by simp at hfuel; omega)
    refine ⟨nodes1, cur, prev1, e1, ?_, he1, ?_, ?_, ?_, ?_⟩
    · simp only [reverse_loop, he, hnext]
      exact hrun
    · rw [hlast, List.getLast?_cons_cons]
    · simpa using hchain
    · intro a ha
      rw [hframe a (fun h => ha (List.mem_cons_of_mem _ h))]
      exact store_other _ _ _ _ (fun h => ha (by simp [h]))
    · exact same_values_trans (same_values_store he prev) hval

/-- Full description of `q_reverse` on a well-formed queue. -/
theorem reverse_spec {w : World} {E : List Elem} (fuel : Nat) (hrep : Rep w E)
    (hfuel : E.length ≤ fuel) :
    ∃ w1, q_reverse fuel w = some w1 ∧ Rep w1 E.reverse ∧ w1.strs = w.strs ∧
      (∀ a, a ∉ E.map Elem.node → w1.nodes a = w.nodes a) ∧
      same_values w.nodes w1.nodes := by
  cases E with
  | nil =>
    refine ⟨w, ?_, hrep, rfl, fun _ _ => rfl, same_values_refl _⟩
    simp [q_reverse, hrep.handle]
  | cons x E =>
    have hlinks := hrep.links
    simp only [List.map_cons, List.head?_cons] at hlinks
    obtain ⟨nodes1, cur, prev1, e, hrun, he, hlast, hchain, hframe, hval⟩ :=
      reverse_loop_spec (E.map Elem.node) x.node [] w.nodes none fuel hlinks rfl
        (by simp) (by simp at hfuel ⊢; omega)
    refine ⟨⟨some ⟨some cur, some x.node, ((x :: E).length : Nat)⟩,
      store nodes1 cur (some ⟨e.value, prev1⟩), w.strs⟩, ?_, ?_, rfl, ?_, hval⟩
    · simp only [q_reverse, hrep.handle, List.map_cons, List.head?_cons, hrun, he]
    · constructor
      · simp only [List.map_reverse, List.getLast?_reverse, List.head?_reverse,
          List.length_reverse, List.map_cons, List.head?_cons]
        rw [← hlast]
      · rw [List.map_reverse, List.head?_reverse, List.map_cons, ← hlast]
        simpa using hchain
      · intro y hy
        obtain ⟨⟨ny, hny⟩, hsy⟩ := hrep.owns y (List.mem_reverse.1 hy)
        exact ⟨same_values_node hval hny, hsy⟩
      · rw [List.map_reverse]
        exact List.nodup_reverse.2 hrep.distinct
    · intro a ha
      exact hframe a (by simpa using ha)

theorem chain_last_next {nodes : Heap list_ele_t} {L : List Ptr} {p : Option Ptr}
    (h : chain nodes p L) {t : Ptr} (ht : L.getLast? = some t) :
    ∃ e, nodes t = some e ∧ e.next = none := by
  have hne : L ≠ [] := by rintro rfl; simp at ht
  have hpos : 0 < L.length := List.length_pos.2 hne
  have hi : L[L.length - 1]? = some t := by
    rw [← ht, List.getLast?_eq_getElem?]
  obtain ⟨e, he, hn⟩ := chain_next h (L.length - 1) t hi
  refine ⟨e, he, ?_⟩
  rw [hn]
  exact List.getElem?_eq_none (by omega)

/-- C8: on a well-formed queue with elements `E`, `q_reverse` (with fuel for the loop)
returns a well-formed queue with the same elements in the order `E.reverse`: `head` is
the old `tail`, `tail` is the old `head`, the `next` of `tail` is `NULL`, the count and
the strings are unchanged and so is every node outside the queue; a queue with at most
one element is left unchanged, and so is the state when the handle is `NULL`. -/
theorem q_reverse_ok (w : World) (E : List Elem) (fuel : Nat) (hrep : Rep w E)
    (hfuel : E.length ≤ fuel) :
    (∃ w1, q_reverse fuel w = some w1 ∧ Rep w1 E.reverse ∧
      w1.head = w.tail ∧ w1.tail = w.head ∧
      (∀ t, w1.tail = some t → ∃ e, w1.nodes t = some e ∧ e.next = none) ∧
      q_size w1 = q_size w ∧
      w1.strs = w.strs ∧
      (∀ a, a ∉ E.map Elem.node → w1.nodes a = w.nodes a) ∧
      same_values w.nodes w1.nodes ∧
      (E.length ≤ 1 → w1 = w)) ∧
    q_reverse fuel ⟨none, w.nodes, w.strs⟩ = some ⟨none, w.nodes, w.strs⟩ := by
  obtain ⟨w1, hrun, hrep1, hstrs, hframe, hval⟩ := reverse_spec fuel hrep hfuel
  refine ⟨⟨w1, hrun, hrep1, ?_, ?_, ?_, ?_, hstrs, hframe, hval, ?_⟩, rfl⟩
  · rw [hrep1.head_eq, hrep.tail_eq, List.map_reverse, List.head?_reverse]
  · rw [hrep1.tail_eq, hrep.head_eq, List.map_reverse, List.getLast?_reverse]
  · intro t ht
    rw [hrep1.tail_eq] at ht
    exact chain_last_next hrep1.links ht
  · rw [hrep1.size, hrep.size, List.length_reverse]
  · intro hlen
    have hrev : E.reverse = E := by
      match E, hlen with
      | [], _ => rfl
      | [x], _ => rfl
      | _ :: _ :: _, h => simp at h
    rw [hrev] at hrep1
    exact rep_ext hrep hrep1 hstrs hframe

theorem q_reverse_ok_witness :
    (Rep w_ba E_ba ∧ E_ba.length ≤ 2) ∧
    (∃ w1, q_reverse 2 w_ba = some w1 ∧ Rep w1 [⟨2, 102, apple⟩, ⟨1, 101, banana⟩] ∧
      w1.head = some 2 ∧ w1.tail = some 1 ∧ q_size w1 = 2) := by
  refine ⟨⟨rep_w_ba, by decide⟩, ?_⟩
  obtain ⟨⟨w1, h1, h2, h3, h4, _, h6, _⟩, _⟩ := q_reverse_ok w_ba E_ba 2 rep_w_ba (by decide)
  exact ⟨w1, h1, h2, h3, h4, h6⟩

/-- C9: on a well-formed queue (empty and single-element queues included), applying
`q_reverse` twice gives back the state it started from: elements, links, `head`, `tail`
and count. -/
theorem q_reverse_involutive (w : World) (E : List Elem) (fuel : Nat) (hrep : Rep w E)
    (hfuel : E.length ≤ fuel) :
    (q_reverse fuel w).bind (q_reverse fuel) = some w := by
  obtain ⟨w1, hrun1, hrep1, hstrs1, hframe1, _⟩ := reverse_spec fuel hrep hfuel
  obtain ⟨w2, hrun2, hrep2, hstrs2, hframe2, _⟩ :=
    reverse_spec fuel hrep1 (by simpa using hfuel)
  rw [List.reverse_reverse] at hrep2
  have : w2 = w := by
    refine rep_ext hrep hrep2 (hstrs2.trans hstrs1) ?_
    intro a ha
    rw [hframe2 a (by simpa using ha), hframe1 a ha]
  rw [hrun1, Option.some_bind, hrun2, this]

theorem q_reverse_involutive_witness :
    (Rep w_ba E_ba ∧ E_ba.length ≤ 2) ∧ (q_reverse 2 w_ba).bind (q_reverse 2) = some w_ba :=
  ⟨⟨rep_w_ba, by decide⟩, q_reverse_involutive w_ba E_ba 2 rep_w_ba (by decide)⟩

/-! ## Insertion sort on lists -/

section pure_sort
variable {α β : Type}

theorem insert_before_eq (le : α → α → Bool) (x : α) :
    ∀ (T1 T2 : List α), (∀ y ∈ T1, le x y = false) →
      (∀ y, T2.head? = some y → le x y = true) →
      insert_before le x (T1 ++ T2) = T1 ++ x :: T2
  | [], [], _, _ => rfl
  | [], y :: T2, _, h2 => by
    simp [insert_before, h2 y rfl]
  | y :: T1, T2, h1, h2 => by
    have hy : le x y = false := h1 y (List.mem_cons_self _ _)
    have ih := insert_before_eq le x T1 T2 (fun z hz => h1 z (List.mem_cons_of_mem _ hz)) h2
    show insert_before le x (y :: (T1 ++ T2)) = y :: (T1 ++ x :: T2)
    simp only [insert_before, hy, ih]
    simp

theorem insert_before_perm (le : α → α → Bool) (x : α) :
    ∀ (L : List α), (insert_before le x L).Perm (x :: L)
  | [] => List.Perm.refl _
  | y :: L => by
    simp only [insert_before]
    split
    · exact List.Perm.refl _
    · exact ((insert_before_perm le x L).cons y).trans (List.Perm.swap x y L)

theorem foldl_insert_before_perm (le : α → α → Bool) :
    ∀ (R S : List α), (R.foldl (fun acc x => insert_before le x acc) S).Perm (S ++ R)
  | [], S => by simp
  | x :: R, S => by
    simp only [List.foldl_cons]
    refine (foldl_insert_before_perm le R _).trans ?_
    refine ((insert_before_perm le x S).append_right R).trans ?_
    simp only [List.cons_append]
    exact (List.perm_middle).symm

theorem insertion_sort_perm (le : α → α → Bool) (L : List α) :
    (insertion_sort le L).Perm L := by
  simpa [insertion_sort] using foldl_insert_before_perm le L []

theorem map_insert_before (f : α → β) (le : α → α → Bool) (le2 : β → β → Bool) (x : α) :
    ∀ (L : List α), (∀ y ∈ L, le x y = le2 (f x) (f y)) →
      (insert_before le x L).map f = insert_before le2 (f x) (L.map f)
  | [], _ => rfl
  | y :: L, h => by
    have hy := h y (List.mem_cons_self _ _)
    simp only [insert_before, List.map_cons, hy]
    split
    · rfl
    · rw [List.map_cons, map_insert_before f le le2 x L
        (fun z hz => h z (List.mem_cons_of_mem _ hz))]

theorem map_foldl_insert_before (f : α → β) (le : α → α → Bool) (le2 : β → β → Bool) :
    ∀ (R S : List α), (∀ x ∈ S ++ R, ∀ y ∈ S ++ R, le x y = le2 (f x) (f y)) →
      (R.foldl (fun acc x => insert_before le x acc) S).map f =
        (R.map f).foldl (fun acc x => insert_before le2 x acc) (S.map f)
  | [], _, _ => rfl
  | x :: R, S, h => by
    simp only [List.foldl_cons, List.map_cons]
    have hperm := insert_before_perm le x S
    rw [map_foldl_insert_before f le le2 R (insert_before le x S), map_insert_before f le le2 x S]
    · intro y hy
      exact h x (by simp) y (by simp [hy])
    · intro a ha b hb
      have hsub : ∀ c, c ∈ insert_before le x S ++ R → c ∈ S ++ x :: R := by
        intro c hc
        rcases List.mem_append.1 hc with hc | hc
        · rcases List.mem_cons.1 (hperm.mem_iff.1 hc) with rfl | hc
          · simp
          · simp [hc]
        · simp [hc]
      exact h a (hsub a ha) b (hsub b hb)

theorem head?_insert_before (le : α → α → Bool) (x : α) (L : List α) :
    (insert_before le x L).head? = some x ∨ (insert_before le x L).head? = L.head? := by
  cases L with
  | nil => left; rfl
  | cons y L =>
    simp only [insert_before]
    split
    · left; rfl
    · right; rfl

theorem chain_insert_before (le : α → α → Bool) (htotal : ∀ a b, le a b = true ∨ le b a = true)
    (x : α) : ∀ (L : List α), L.Chain' (fun a b => le a b = true) →
      (insert_before le x L).Chain' (fun a b => le a b = true)
  | [], _ => by simp [insert_before]
  | y :: L, h => by
    simp only [insert_before]
    split
    · rename_i hxy
      exact List.Chain'.cons hxy h
    · rename_i hxy
      have hyx : le y x = true := (htotal x y).resolve_left hxy
      rw [List.chain'_cons'] at h ⊢
      refine ⟨?_, chain_insert_before le htotal x L h.2⟩
      intro z hz
      rcases head?_insert_before le x L with h1 | h1
      · rw [h1] at hz
        simp only [Option.mem_def, Option.some.injEq] at hz
        rw [← hz]; exact hyx
      · rw [h1] at hz
        exact h.1 z hz

theorem chain_foldl_insert_before (le : α → α → Bool)
    (htotal : ∀ a b, le a b = true ∨ le b a = true) :
    ∀ (R S : List α), S.Chain' (fun a b => le a b = true) →
      (R.foldl (fun acc x => insert_before le x acc) S).Chain' (fun a b => le a b = true)
  | [], _, h => h
  | x :: R, S, h => by
    simp only [List.foldl_cons]
    exact chain_foldl_insert_before le htotal R _ (chain_insert_before le htotal x S h)

theorem insertion_sort_chain (le : α → α → Bool)
    (htotal : ∀ a b, le a b = true ∨ le b a = true) (L : List α) :
    (insertion_sort le L).Chain' (fun a b => le a b = true) :=
  chain_foldl_insert_before le htotal L [] List.chain'_nil

end pure_sort

/-! ## The loops of `q_sort` -/

theorem read_value_same {n1 n2 : Heap list_ele_t} (h : same_values n1 n2) (strs : Heap Str)
    (a : Ptr) : read_value n2 strs a = read_value n1 strs a := by
  have := h a
  unfold read_value
  cases h1 : n1 a with
  | none =>
    rw [h1] at this
    cases h2 : n2 a with
    | none => rfl
    | some e => rw [h2] at this; simp at this
  | some e1 =>
    rw [h1] at this
    cases h2 : n2 a with
    | none => rw [h2] at this; simp at this
    | some e2 =>
      rw [h2] at this
      simp only [Option.map_some', Option.some.injEq] at this
      simp only [this]

/-- The scan of the sorted chain `S` for the place of `ins`, started at `haystack`
with `*haystack` the first node of `S`. -/
theorem sort_scan_spec (cmp : Str → Str → Int) (nodes : Heap list_ele_t) (strs : Heap Str)
    (head : Option Ptr) (ins : Ptr) (val : Ptr → Str)
    (hins : read_value nodes strs ins = some (val ins)) :
    ∀ (S : List Ptr) (hay : Option Ptr) (fuel : Nat),
      load_haystack nodes head hay = some S.head? → chain nodes S.head? S →
      (∀ y ∈ S, read_value nodes strs y = some (val y)) → S.length < fuel →
      ∃ T1 T2 hay1, S = T1 ++ T2 ∧
        sort_scan cmp nodes strs head ins fuel hay = some hay1 ∧
        (∀ y ∈ T1, ¬ cmp (val ins) (val y) ≤ 0) ∧
        (∀ y, T2.head? = some y → cmp (val ins) (val y) ≤ 0) ∧
        load_haystack nodes head hay1 = some T2.head? ∧
        hay1 = (match T1.getLast? with
          | none => hay
          | some t => some t)
  | [], hay, fuel, hload, _, _, hfuel => by
    obtain ⟨f, rfl⟩ : ∃ f, fuel = f + 1 := ⟨fuel - 1, by omega⟩
    refine ⟨[], [], hay, rfl, ?_, by simp, by simp, hload, rfl⟩
    simp only [List.head?_nil] at hload
    simp [sort_scan, hload]
  | y :: S, hay, fuel, hload, hchain, hval, hfuel => by
    obtain ⟨f, rfl⟩ : ∃ f, fuel = f + 1 := ⟨fuel - 1, by omega⟩
    simp only [List.head?_cons] at hload hchain
    have hy := hval y (List.mem_cons_self _ _)
    by_cases hc : cmp (val ins) (val y) ≤ 0
    · refine ⟨[], y :: S, hay, rfl, ?_, by simp, ?_, hload, rfl⟩
      · simp [sort_scan, hload, hins, hy, hc]
      · intro z hz
        simp only [List.head?_cons, Option.some.injEq] at hz
        rw [← hz]; exact hc
    · obtain ⟨_, e, he, hrest⟩ := hchain
      have hnext := chain_head hrest
      have hload1 : load_haystack nodes head (some y) = some S.head? := by
        simp [load_haystack, he, hnext]
      obtain ⟨T1, T2, hay1, hS, hrun, h1, h2, hl, hh⟩ :=
        sort_scan_spec cmp nodes strs head ins val hins S (some y) f hload1
          (hnext ▸ hrest) (fun z hz => hval z (List.mem_cons_of_mem _ hz))
          (by simp at hfuel; omega)
      refine ⟨y :: T1, T2, hay1, by rw [hS]; rfl, ?_, ?_, h2, hl, ?_⟩
      · simp only [sort_scan, hload, hins, hy, if_neg hc]
        exact hrun
      · intro z hz
        rcases List.mem_cons.1 hz with rfl | hz
        · exact hc
        · exact h1 z hz
      · rw [hh]
        cases T1 with
        | nil => rfl
        | cons t T1 =>
          rw [List.getLast?_cons_cons]
          cases h : (t :: T1).getLast? with
          | none => simp at h
          | some u => rfl

/-- The two assignments `*haystack = insert; insert->next = tmp` that link
`ins` into the chain between `T1` and `T2`. -/
theorem sort_link_spec {nodes : Heap list_ele_t} {head : Option Ptr} {T1 T2 : List Ptr}
    {ins : Ptr} {ei : list_ele_t} (hchain : chain nodes head (T1 ++ T2))
    (hins : ins ∉ T1 ++ T2) (hei : nodes ins = some ei) :
    ∃ nodes2 head2 ei2, store_haystack nodes head (some ins) T1.getLast? = some (nodes2, head2) ∧
      nodes2 ins = some ei2 ∧
      chain (store nodes2 ins (some ⟨ei2.value, T2.head?⟩)) head2 (T1 ++ ins :: T2) ∧
      (∀ a, a ≠ ins → a ∉ T1 → store nodes2 ins (some ⟨ei2.value, T2.head?⟩) a = nodes a) ∧
      same_values nodes (store nodes2 ins (some ⟨ei2.value, T2.head?⟩)) := by
  have hnd := chain_nodup hchain
  have hseg := (chain_iff_lseg _ _ _).1 hchain
  obtain ⟨m, hseg1, hseg2⟩ := (lseg_append _ _ _ _ _).1 hseg
  have hchain2 : chain nodes m T2 := (chain_iff_lseg _ _ _).2 hseg2
  have hm : m = T2.head? := chain_head hchain2
  subst hm
  have hins1 : ins ∉ T1 := fun h => hins (List.mem_append_left _ h)
  have hins2 : ins ∉ T2 := fun h => hins (List.mem_append_right _ h)
  rcases List.eq_nil_or_concat T1 with rfl | ⟨T0, t, hT⟩
  · simp only [lseg] at hseg1
    refine ⟨nodes, some ins, ei, rfl, hei, ?_, ?_, same_values_store hei _⟩
    · refine ⟨rfl, _, store_same _ _ _, ?_⟩
      refine chain_frame ?_ hchain2
      intro a ha
      exact store_other _ _ _ _ (fun h => hins2 (h ▸ ha))
    · intro a ha _
      exact store_other _ _ _ _ ha
  · rw [List.concat_eq_append] at hT
    subst hT
    have hnd1 : (T0 ++ [t]).Nodup := (List.nodup_append.1 hnd).1
    obtain ⟨et, het, hset⟩ := lseg_set_last hseg1 hnd1 (some ins)
    have hti : ins ≠ t := fun h => hins1 (by simp [h])
    have ht2 : t ∉ T2 := fun h => (List.nodup_append.1 hnd).2.2 (by simp) h
    have hei2 : store nodes t (some ⟨et.value, some ins⟩) ins = some ei := by
      rw [store_other _ _ _ _ hti, hei]
    refine ⟨store nodes t (some ⟨et.value, some ins⟩), head, ei, ?_, hei2, ?_, ?_, ?_⟩
    · simp [store_haystack, het]
    · rw [chain_iff_lseg, lseg_append]
      refine ⟨some ins, ?_, rfl, _, store_same _ _ _, ?_⟩
      · refine lseg_frame ?_ hset
        intro a ha
        exact store_other _ _ _ _ (fun h => hins1 (h ▸ ha))
      · rw [← chain_iff_lseg]
        refine chain_frame ?_ hchain2
        intro a ha
        have h1 : a ≠ ins := fun h => hins2 (h ▸ ha)
        have h2 : a ≠ t := fun h => ht2 (h ▸ ha)
        rw [store_other _ _ _ _ h1, store_other _ _ _ _ h2]
    · intro a ha hat
      rw [store_other _ _ _ _ ha, store_other _ _ _ _ (fun h => hat (by simp [h]))]
    · exact same_values_trans (same_values_store het _) (same_values_store hei2 _)

/-- The outer loop of `q_sort`: with `S` the sorted chain built so far and `R` the
nodes still to insert, the loop ends with the chain that inserts the nodes of `R` one
after the other. -/
theorem sort_loop_spec (cmp : Str → Str → Int) (strs : Heap Str) (val : Ptr → Str)
    (scanfuel : Nat) :
    ∀ (R S : List Ptr) (nodes : Heap list_ele_t) (head tail e : Option Ptr) (fuel : Nat),
      chain nodes head S → tail = S.getLast? → chain nodes e R → (∀ a ∈ S, a ∉ R) →
      (∀ a ∈ S ++ R, read_value nodes strs a = some (val a)) →
      R.length < fuel → S.length + R.length ≤ scanfuel →
      ∃ nodes1 head1 tail1,
        sort_loop cmp strs scanfuel fuel nodes head tail e = some (nodes1, head1, tail1) ∧
        chain nodes1 head1 (R.foldl (fun acc x => insert_before (node_le cmp val) x acc) S) ∧
        tail1 = (R.foldl (fun acc x => insert_before (node_le cmp val) x acc) S).getLast? ∧
        (∀ a, a ∉ S ++ R → nodes1 a = nodes a) ∧
        same_values nodes nodes1
  | [], S, nodes, head, tail, e, fuel, hS, htail, hR, _, _, hfuel, _ => by
    obtain ⟨f, rfl⟩ : ∃ f, fuel = f + 1 := ⟨fuel - 1, by omega⟩
    simp only [chain] at hR
    subst hR
    exact ⟨nodes, head, tail, rfl, hS, htail, fun _ _ => rfl, same_values_refl _⟩
  | r :: R, S, nodes, head, tail, e, fuel, hS, htail, hR, hdis, hval, hfuel, hscan => by
    obtain ⟨f, rfl⟩ : ∃ f, fuel = f + 1 := ⟨fuel - 1, by omega⟩
    have hndR := chain_nodup hR
    obtain ⟨he, ei, hei, hrest⟩ := hR
    subst he
    have hrR : r ∉ R := (List.nodup_cons.1 hndR).1
    have hrS : r ∉ S := fun h => hdis r h (List.mem_cons_self _ _)
    -- `insert->next = NULL`
    have hsv1 := same_values_store hei none
    have hS1 : chain (store nodes r (some ⟨ei.value, none⟩)) head S := by
      refine chain_frame ?_ hS
      intro a ha
      exact store_other _ _ _ _ (fun h => hrS (h ▸ ha))
    have hval1 : ∀ a ∈ S ++ r :: R,
        read_value (store nodes r (some ⟨ei.value, none⟩)) strs a = some (val a) := by
      intro a ha
      rw [read_value_same hsv1]
      exact hval a ha
    have hhead : head = S.head? := chain_head hS1
    -- the scan
    obtain ⟨T1, T2, hay1, hST, hrun, hT1, hT2, hload, hhay⟩ :=
      sort_scan_spec cmp _ strs head r val (hval1 r (by simp)) S none scanfuel
        (by simp [load_haystack, hhead]) (hhead ▸ hS1)
        (fun y hy => hval1 y (List.mem_append_left _ hy)) (by simp at hscan; omega)
    have hhay1 : hay1 = T1.getLast? := by
      rw [hhay]
      cases T1.getLast? <;> rfl
    subst hhay1
    subst hST
    -- the two assignments
    obtain ⟨nodes2, head2, ei2, hstore, hei2, hchain3, hframe3, hsv3⟩ :=
      sort_link_spec hS1 hrS (store_same _ _ _)
    have hins : insert_before (node_le cmp val) r (T1 ++ T2) = T1 ++ r :: T2 := by
      refine insert_before_eq _ r T1 T2 ?_ ?_
      · intro y hy
        simpa [node_le] using hT1 y hy
      · intro y hy
        simpa [node_le] using hT2 y hy
    have hT1R : ∀ a ∈ R, a ∉ T1 := fun a ha h =>
      hdis a (List.mem_append_left _ h) (List.mem_cons_of_mem _ ha)
    have htail1 : (if T2.head? = none then some r else tail) = (T1 ++ r :: T2).getLast? := by
      cases T2 with
      | nil => simp
      | cons y T2 =>
        rw [htail]
        simp [List.getLast?_cons_cons]
    obtain ⟨nodes4, head4, tail4, hrun4, hchain4, htail4, hframe4, hsv4⟩ :=
      sort_loop_spec cmp strs val scanfuel R (T1 ++ r :: T2)
        (store nodes2 r (some ⟨ei2.value, T2.head?⟩)) head2
        (if T2.head? = none then some r else tail) ei.next f hchain3 htail1
        (by
          refine chain_frame ?_ hrest
          intro a ha
          have h1 : a ≠ r := fun h => hrR (h ▸ ha)
          rw [hframe3 a h1 (hT1R a ha), store_other _ _ _ _ h1])
        (by
          intro a ha haR
          rcases List.mem_append.1 ha with h | h
          · exact hdis a (List.mem_append_left _ h) (List.mem_cons_of_mem _ haR)
          · rcases List.mem_cons.1 h with rfl | h
            · exact hrR haR
            · exact hdis a (List.mem_append_right _ h) (List.mem_cons_of_mem _ haR))
        (by
          intro a ha
          rw [read_value_same hsv3]
          refine hval1 a ?_
          simp only [List.mem_append, List.mem_cons] at ha ⊢
          tauto)
        (by simp at hfuel; omega)
        (by simp at hscan ⊢; omega)
    refine ⟨nodes4, head4, tail4, ?_, ?_, ?_, ?_, ?_⟩
    · simp only [sort_loop, hei, hrun, hload, hstore, hei2]
      exact hrun4
    · simp only [List.foldl_cons, hins]
      exact hchain4
    · simp only [List.foldl_cons, hins]
      exact htail4
    · intro a ha
      have h1 : a ≠ r := fun h => ha (by simp [h])
      have h2 : a ∉ T1 := fun h => ha (by simp [h])
      rw [hframe4 a (by
        simp only [List.mem_append, List.mem_cons] at ha ⊢
        tauto), hframe3 a h1 h2, store_other _ _ _ _ h1]
    · exact same_values_trans hsv1 (same_values_trans hsv3 hsv4)

theorem Rep.read_value {w : World} {E : List Elem} (h : Rep w E) {x : Elem} (hx : x ∈ E) :
    read_value w.nodes w.strs x.node = some x.str := by
  obtain ⟨⟨nx, hn⟩, hs⟩ := h.owns x hx
  simp [Queue.read_value, hn, hs]

theorem Rep.val_eq {w : World} {E : List Elem} (h : Rep w E) {x : Elem} (hx : x ∈ E) :
    w.val x.node = x.str := by
  simp [World.val, h.read_value hx]

/-- Full description of `q_sort` on a well-formed queue: the elements are relinked in
the order of the insertion sort. -/
theorem sort_spec {w : World} {E : List Elem} (cmp : Str → Str → Int) (fuel : Nat)
    (hrep : Rep w E) (hfuel : E.length ≤ fuel) :
    ∃ w1, q_sort cmp fuel w = some w1 ∧ Rep w1 (insertion_sort (elem_le cmp) E) ∧
      w1.strs = w.strs ∧
      (∀ a, a ∉ E.map Elem.node → w1.nodes a = w.nodes a) ∧
      same_values w.nodes w1.nodes := by
  cases E with
  | nil =>
    refine ⟨w, ?_, hrep, rfl, fun _ _ => rfl, same_values_refl _⟩
    simp [q_sort, hrep.handle]
  | cons x E =>
    have hlinks := hrep.links
    have hnd := hrep.nodup
    simp only [List.map_cons, List.head?_cons] at hlinks hnd
    obtain ⟨_, eh, heh, hrest⟩ := hlinks
    have hxR : x.node ∉ E.map Elem.node := (List.nodup_cons.1 hnd).1
    have hsv1 := same_values_store heh none
    have hval : ∀ a ∈ [x.node] ++ E.map Elem.node,
        read_value (store w.nodes x.node (some ⟨eh.value, none⟩)) w.strs a = some (w.val a) := by
      intro a ha
      have ha2 : a ∈ (x :: E).map Elem.node := by simpa using ha
      obtain ⟨y, hy, rfl⟩ := List.mem_map.1 ha2
      rw [read_value_same hsv1, hrep.read_value hy, hrep.val_eq hy]
    obtain ⟨nodes2, head1, tail1, hrun, hchain, htail, hframe, hsv2⟩ :=
      sort_loop_spec cmp w.strs w.val fuel (E.map Elem.node) [x.node]
        (store w.nodes x.node (some ⟨eh.value, none⟩)) (some x.node) (some x.node) eh.next fuel
        ⟨rfl, _, store_same _ _ _, rfl⟩ rfl
        (by
          refine chain_frame ?_ hrest
          intro a ha
          exact store_other _ _ _ _ (fun h => hxR (h ▸ ha)))
        (by
          intro a ha
          simp only [List.mem_singleton] at ha
          subst ha
          exact hxR)
        hval (by simp at hfuel ⊢; omega) (by simp at hfuel ⊢; omega)
    have hmap : (insertion_sort (elem_le cmp) (x :: E)).map Elem.node =
        (E.map Elem.node).foldl (fun acc a => insert_before (node_le cmp w.val) a acc)
          [x.node] := by
      have : insertion_sort (elem_le cmp) (x :: E) =
          E.foldl (fun acc a => insert_before (elem_le cmp) a acc) [x] := by
        simp [insertion_sort, insert_before]
      rw [this, map_foldl_insert_before Elem.node (elem_le cmp) (node_le cmp w.val) E [x]]
      · rfl
      · intro a ha b hb
        simp only [List.singleton_append] at ha hb
        simp [elem_le, node_le, hrep.val_eq ha, hrep.val_eq hb]
    rw [← hmap] at hchain htail
    have hperm := insertion_sort_perm (elem_le cmp) (x :: E)
    refine ⟨⟨some ⟨head1, tail1, ((x :: E).length : Nat)⟩, nodes2, w.strs⟩, ?_, ?_, rfl, ?_,
      same_values_trans hsv1 hsv2⟩
    · simp only [q_sort, hrep.handle, List.map_cons, List.head?_cons, heh, hrun]
    · constructor
      · simp only
        rw [← chain_head hchain, ← htail, hperm.length_eq]
      · rw [← chain_head hchain]
        exact hchain
      · intro y hy
        have hyE := hperm.mem_iff.1 hy
        obtain ⟨⟨ny, hny⟩, hsy⟩ := hrep.owns y hyE
        exact ⟨same_values_node (same_values_trans hsv1 hsv2) hny, hsy⟩
      · exact (hperm.map Elem.vptr).nodup_iff.2 hrep.distinct
    · intro a ha
      have h1 : a ≠ x.node := fun h => ha (by simp [h])
      show nodes2 a = _
      rw [hframe a (by simpa using ha), store_other _ _ _ _ h1]

theorem rep_w_items : Rep w_items E_items := by
  constructor <;> simp [w_items, E_items, chain, store]

theorem key_cmp_total (a b : Str) : key_cmp a b ≤ 0 ∨ key_cmp b a ≤ 0 := by
  unfold key_cmp
  rcases lt_trichotomy (str_key a) (str_key b) with h | h | h
  · left; simp [h]
  · left; simp [h]
  · right; simp [h]

theorem insertion_sort_items :
    insertion_sort (elem_le key_cmp) E_items =
      [⟨3, 103, item2⟩, ⟨1, 101, item9⟩, ⟨2, 102, item10⟩] := by
  decide

/-- C10: on a well-formed queue (the empty one included) and for a comparator that is
total (`cmp a b ≤ 0` or `cmp b a ≤ 0`; transitivity and `cmp a a = 0` are not needed),
`q_sort` returns a well-formed queue whose elements are a rearrangement of the input
and in which every adjacent pair of values `(a, b)` satisfies `cmp a b ≤ 0`. -/
theorem q_sort_sorted (cmp : Str → Str → Int) (w : World) (E : List Elem) (fuel : Nat)
    (hrep : Rep w E) (hfuel : E.length ≤ fuel)
    (htotal : ∀ a b, cmp a b ≤ 0 ∨ cmp b a ≤ 0) :
    ∃ w1, q_sort cmp fuel w = some w1 ∧ Rep w1 (insertion_sort (elem_le cmp) E) ∧
      (insertion_sort (elem_le cmp) E).Perm E ∧
      ((insertion_sort (elem_le cmp) E).map Elem.str).Chain' (fun a b => cmp a b ≤ 0) := by
  obtain ⟨w1, hrun, hrep1, _, _, _⟩ := sort_spec cmp fuel hrep hfuel
  refine ⟨w1, hrun, hrep1, insertion_sort_perm _ _, ?_⟩
  rw [List.chain'_map]
  have h := insertion_sort_chain (elem_le cmp)
    (fun a b => by simpa [elem_le] using htotal a.str b.str) E
  refine h.imp ?_
  intro a b hab
  simpa [elem_le] using hab

theorem q_sort_sorted_witness :
    (Rep w_items E_items ∧ E_items.length ≤ 3 ∧ ∀ a b, key_cmp a b ≤ 0 ∨ key_cmp b a ≤ 0) ∧
    ∃ w1, q_sort key_cmp 3 w_items = some w1 ∧
      Rep w1 [⟨3, 103, item2⟩, ⟨1, 101, item9⟩, ⟨2, 102, item10⟩] ∧
      List.Chain' (fun a b => key_cmp a b ≤ 0) [item2, item9, item10] := by
  refine ⟨⟨rep_w_items, by decide, key_cmp_total⟩, ?_⟩
  obtain ⟨w1, h1, h2, _, h4⟩ :=
    q_sort_sorted key_cmp w_items E_items 3 rep_w_items (by decide) key_cmp_total
  rw [insertion_sort_items] at h2 h4
  exact ⟨w1, h1, h2, h4⟩

/-! ## Sequences of calls and `q_size` -/

theorem malloc_free_same {α : Type} (h : Heap α) (a : Ptr) (x : α) (ha : h a = none) :
    free (store h a (some x)) a = some h := by
  have : store h a none = h := by
    have := store_self h a
    rwa [ha] at this
  simp [free, store_store, this]

/-- A failing `q_insert_head` returns false and the state it was called in. -/
theorem insert_head_fail (w : World) (s : Str) (m d : Option Ptr) (hm : fresh w.nodes m)
    (hfail : w.q = none ∨ m = none ∨ d = none) :
    q_insert_head w s m d = some (false, w) := by
  unfold q_insert_head
  cases hq : w.q with
  | none => rfl
  | some q =>
    cases m with
    | none => rfl
    | some a =>
      cases d with
      | none =>
        simp only [fresh] at hm
        simp only [malloc_free_same _ _ _ hm, Option.map_some']
        cases w
        simp only at hq
        subst hq
        rfl
      | some v => simp [hq] at hfail

/-- A failing `q_insert_tail` returns false and the state it was called in. -/
theorem insert_tail_fail (w : World) (s : Str) (m d : Option Ptr) (hm : fresh w.nodes m)
    (hfail : w.q = none ∨ m = none ∨ d = none) :
    q_insert_tail w s m d = some (false, w) := by
  unfold q_insert_tail
  cases hq : w.q with
  | none => rfl
  | some q =>
    cases m with
    | none => rfl
    | some a =>
      cases d with
      | none =>
        simp only [fresh] at hm
        simp only [malloc_free_same _ _ _ hm, Option.map_some']
        cases w
        simp only at hq
        subst hq
        rfl
      | some v => simp [hq] at hfail

theorem same_values_alloc {n1 n2 : Heap list_ele_t} (h : same_values n1 n2) (a : Ptr) :
    n2 a = none ↔ n1 a = none := by
  have := h a
  cases h1 : n1 a <;> cases h2 : n2 a <;> simp [h1, h2] at this ⊢

/-- C11: on a well-formed queue and for every comparator, `q_sort` returns a well-formed
queue whose elements (node, string block and string) are a rearrangement of the elements
before: none is lost, duplicated or created; the count is unchanged and is the number of
elements of the chain; no block is allocated or released and no string or `value`
pointer is changed. -/
theorem q_sort_relinks (cmp : Str → Str → Int) (w : World) (E : List Elem) (fuel : Nat)
    (hrep : Rep w E) (hfuel : E.length ≤ fuel) :
    ∃ w1 E1, q_sort cmp fuel w = some w1 ∧ Rep w1 E1 ∧ E1.Perm E ∧
      q_size w1 = q_size w ∧ q_size w1 = E1.length ∧
      w1.strs = w.strs ∧
      (∀ a, w1.nodes a = none ↔ w.nodes a = none) ∧
      same_values w.nodes w1.nodes ∧
      (∀ a, a ∉ E.map Elem.node → w1.nodes a = w.nodes a) := by
  obtain ⟨w1, hrun, hrep1, hstrs, hframe, hval⟩ := sort_spec cmp fuel hrep hfuel
  have hperm := insertion_sort_perm (elem_le cmp) E
  refine ⟨w1, _, hrun, hrep1, hperm, ?_, hrep1.size, hstrs, same_values_alloc hval, hval,
    hframe⟩
  rw [hrep1.size, hrep.size, hperm.length_eq]

theorem q_sort_relinks_witness :
    (Rep w_items E_items ∧ E_items.length ≤ 3) ∧
    ∃ w1 E1, q_sort key_cmp 3 w_items = some w1 ∧ Rep w1 E1 ∧ E1.Perm E_items ∧
      q_size w1 = q_size w_items ∧ q_size w1 = E1.length := by
  refine ⟨⟨rep_w_items, by decide⟩, ?_⟩
  obtain ⟨w1, E1, h1, h2, h3, h4, h5, _⟩ :=
    q_sort_relinks key_cmp w_items E_items 3 rep_w_items (by decide)
  exact ⟨w1, E1, h1, h2, h3, h4, h5⟩

/-- C14: `q_sort` changes nothing on trivial inputs, for every comparator: on a
well-formed queue with no element or with exactly one element the state after the call
is the state before it (`head`, `tail`, count, the element and its `next`), and so it is
when the handle is `NULL`. -/
theorem q_sort_trivial (cmp : Str → Str → Int) (w : World) (E : List Elem) (fuel : Nat)
    (hrep : Rep w E) (hlen : E.length ≤ 1) (hfuel : E.length ≤ fuel) :
    q_sort cmp fuel w = some w ∧
    q_sort cmp fuel ⟨none, w.nodes, w.strs⟩ = some ⟨none, w.nodes, w.strs⟩ := by
  refine ⟨?_, rfl⟩
  obtain ⟨w1, hrun, hrep1, hstrs, hframe, _⟩ := sort_spec cmp fuel hrep hfuel
  have hsame : insertion_sort (elem_le cmp) E = E := by
    match E, hlen with
    | [], _ => rfl
    | [x], _ => rfl
    | _ :: _ :: _, h => simp at h
  rw [hsame] at hrep1
  rw [hrun, rep_ext hrep hrep1 hstrs hframe]

theorem q_sort_trivial_witness :
    (Rep w_b E_b ∧ E_b.length ≤ 1 ∧ E_b.length ≤ 1) ∧
    (q_sort key_cmp 1 w_b = some w_b ∧
      q_sort key_cmp 1 ⟨none, w_b.nodes, w_b.strs⟩ = some ⟨none, w_b.nodes, w_b.strs⟩) :=
  ⟨⟨rep_w_b, by decide, by decide⟩, q_sort_trivial key_cmp w_b E_b 1 rep_w_b (by decide)
    (by decide)⟩

theorem insert_before_eq_spec_ins (cmp : Str → Str → Int) (x : Elem) :
    ∀ (acc : List Elem), insert_before (elem_le cmp) x acc = spec_ins cmp acc x
  | [] => rfl
  | y :: acc => by
    have ih := insert_before_eq_spec_ins cmp x acc
    unfold spec_ins at ih ⊢
    by_cases h : cmp x.str y.str ≤ 0
    · simp [insert_before, elem_le, h, List.takeWhile, List.dropWhile]
    · simp [insert_before, elem_le, h, List.takeWhile, List.dropWhile, ih]

theorem insertion_sort_eq_spec_sort (cmp : Str → Str → Int) (E : List Elem) :
    insertion_sort (elem_le cmp) E = spec_sort cmp E := by
  unfold insertion_sort spec_sort
  congr 1
  funext acc x
  exact insert_before_eq_spec_ins cmp x acc

/-- C18: on a well-formed queue with elements `E` and for every comparator, the
pointer-rewiring `q_sort` returns the well-formed queue whose element sequence is
`spec_sort cmp E`: the left fold over `E`, from the empty list, of the insertion of `x`
immediately before the first `y` with `cmp x y ≤ 0`, or at the end. -/
theorem q_sort_refines (cmp : Str → Str → Int) (w : World) (E : List Elem) (fuel : Nat)
    (hrep : Rep w E) (hfuel : E.length ≤ fuel) :
    ∃ w1, q_sort cmp fuel w = some w1 ∧ Rep w1 (spec_sort cmp E) := by
  obtain ⟨w1, hrun, hrep1, _⟩ := sort_spec cmp fuel hrep hfuel
  rw [insertion_sort_eq_spec_sort] at hrep1
  exact ⟨w1, hrun, hrep1⟩

theorem spec_sort_items :
    spec_sort key_cmp E_items = [⟨3, 103, item2⟩, ⟨1, 101, item9⟩, ⟨2, 102, item10⟩] := by
  decide

theorem q_sort_refines_witness :
    (Rep w_items E_items ∧ E_items.length ≤ 3) ∧
    ∃ w1, q_sort key_cmp 3 w_items = some w1 ∧
      Rep w1 [⟨3, 103, item2⟩, ⟨1, 101, item9⟩, ⟨2, 102, item10⟩] := by
  refine ⟨⟨rep_w_items, by decide⟩, ?_⟩
  obtain ⟨w1, h1, h2⟩ := q_sort_refines key_cmp w_items E_items 3 rep_w_items (by decide)
  rw [spec_sort_items] at h2
  exact ⟨w1, h1, h2⟩

/-! ## Failing insertions, and reversal against insertion -/

/-- C15: in a state whose handle is `NULL` or whose queue is well formed, and with
allocation results that are fresh, `q_insert_head` and `q_insert_tail` each return, the
result is false exactly when the handle is `NULL`, `malloc` failed or `strdup` failed
(and true otherwise), and whenever the result is false the state after the call is the
state before it: in particular the element that `malloc` returned is not allocated any
more when `strdup` failed. -/
theorem q_insert_atomic (w : World) (s : Str) (m d : Option Ptr)
    (hw : w.q = none ∨ ∃ E, Rep w E) (hm : fresh w.nodes m) (hd : fresh w.strs d) :
    (∃ b w1, q_insert_head w s m d = some (b, w1) ∧
      (b = false ↔ (w.q = none ∨ m = none ∨ d = none)) ∧
      (b = false → w1 = w ∧ ∀ a, m = some a → w1.nodes a = none)) ∧
    (∃ b w1, q_insert_tail w s m d = some (b, w1) ∧
      (b = false ↔ (w.q = none ∨ m = none ∨ d = none)) ∧
      (b = false → w1 = w ∧ ∀ a, m = some a → w1.nodes a = none)) := by
  have hrel : ∀ a, m = some a → w.nodes a = none := by
    intro a ha
    subst ha
    exact hm
  by_cases hfail : w.q = none ∨ m = none ∨ d = none
  · exact ⟨⟨false, w, insert_head_fail w s m d hm hfail, by simp [hfail], fun _ => ⟨rfl, hrel⟩⟩,
      ⟨false, w, insert_tail_fail w s m d hm hfail, by simp [hfail], fun _ => ⟨rfl, hrel⟩⟩⟩
  · have hq : w.q ≠ none := fun h => hfail (Or.inl h)
    obtain ⟨E, hrep⟩ := hw.resolve_left hq
    obtain ⟨a, rfl⟩ := Option.ne_none_iff_exists'.1 (fun h => hfail (Or.inr (Or.inl h)))
    obtain ⟨v, rfl⟩ := Option.ne_none_iff_exists'.1 (fun h => hfail (Or.inr (Or.inr h)))
    obtain ⟨w1, hrun1, _⟩ := insert_head_spec s a v hrep hm hd
    obtain ⟨w2, hrun2, _⟩ := insert_tail_spec s a v hrep hm hd
    exact ⟨⟨true, w1, hrun1, by simp [hq], by simp⟩, ⟨true, w2, hrun2, by simp [hq], by simp⟩⟩

theorem q_insert_atomic_witness :
    ((w_ba.q = none ∨ ∃ E, Rep w_ba E) ∧ fresh w_ba.nodes (some 3) ∧ fresh w_ba.strs none) ∧
    (∃ b w1, q_insert_head w_ba cherry (some 3) none = some (b, w1) ∧
      (b = false ↔ (w_ba.q = none ∨ some 3 = (none : Option Ptr) ∨ (none : Option Ptr) = none)) ∧
      (b = false → w1 = w_ba ∧ ∀ a, some 3 = some a → w1.nodes a = none)) ∧
    (∃ b w1, q_insert_tail w_ba cherry (some 3) none = some (b, w1) ∧
      (b = false ↔ (w_ba.q = none ∨ some 3 = (none : Option Ptr) ∨ (none : Option Ptr) = none)) ∧
      (b = false → w1 = w_ba ∧ ∀ a, some 3 = some a → w1.nodes a = none)) :=
  ⟨⟨Or.inr ⟨E_ba, rep_w_ba⟩, by simp [fresh, w_ba, store, no_blocks], trivial⟩,
    q_insert_atomic w_ba cherry (some 3) none (Or.inr ⟨E_ba, rep_w_ba⟩)
      (by simp [fresh, w_ba, store, no_blocks]) trivial⟩

theorem Rep.not_tail {w : World} {E : List Elem} (h : Rep w E) {a : Ptr}
    (ha : a ∉ E.map Elem.node) : some a ≠ w.tail := by
  intro heq
  rw [h.tail_eq] at heq
  exact ha (List.mem_of_getLast?_eq_some heq.symm)

/-- C20: on a well-formed queue with elements `E`, with fresh allocation results `newh`
and `v`: `q_insert_head` followed by `q_reverse` ends in the same state as `q_reverse`
followed by `q_insert_tail` (elements `E.reverse ++ [new]`), and `q_insert_tail`
followed by `q_reverse` ends in the same state as `q_reverse` followed by
`q_insert_head` (elements `new :: E.reverse`); the states agree in elements, count,
`head`, `tail` and every link. -/
theorem q_reverse_exchanges_ends (w : World) (E : List Elem) (s : Str) (newh v : Ptr)
    (fuel : Nat) (hrep : Rep w E) (hm : w.nodes newh = none) (hd : w.strs v = none)
    (hfuel : E.length + 1 ≤ fuel) :
    ∃ wh wt wr w1 w2,
      q_reverse fuel w = some wr ∧
      q_insert_head w s (some newh) (some v) = some (true, wh) ∧
      q_reverse fuel wh = some w1 ∧
      q_insert_tail wr s (some newh) (some v) = some (true, w1) ∧
      Rep w1 (E.reverse ++ [⟨newh, v, s⟩]) ∧
      q_insert_tail w s (some newh) (some v) = some (true, wt) ∧
      q_reverse fuel wt = some w2 ∧
      q_insert_head wr s (some newh) (some v) = some (true, w2) ∧
      Rep w2 (⟨newh, v, s⟩ :: E.reverse) := by
  obtain ⟨wr, hrunr, hrepr, hstrsr, hframer, hvalr⟩ := reverse_spec fuel hrep (by omega)
  have hmr : wr.nodes newh = none := (same_values_alloc hvalr newh).2 hm
  have hdr : wr.strs v = none := by rw [hstrsr]; exact hd
  obtain ⟨wh, hrunh, hreph, hnodesh, hstrsh⟩ := insert_head_spec s newh v hrep hm hd
  obtain ⟨wt, hrunt, hrept, _, hframet, hstrst⟩ := insert_tail_spec s newh v hrep hm hd
  obtain ⟨wrt, hrunrt, hreprt, _, hframert, hstrsrt⟩ := insert_tail_spec s newh v hrepr hmr hdr
  obtain ⟨wrh, hrunrh, hreprh, hnodesrh, hstrsrh⟩ := insert_head_spec s newh v hrepr hmr hdr
  obtain ⟨w1, hrun1, hrep1, hstrs1, hframe1, _⟩ :=
    reverse_spec fuel hreph (by simp; omega)
  obtain ⟨w2, hrun2, hrep2, hstrs2, hframe2, _⟩ :=
    reverse_spec fuel hrept (by simp; omega)
  rw [List.reverse_cons] at hrep1
  rw [List.reverse_append, List.reverse_singleton, List.singleton_append] at hrep2
  have h1 : wrt = w1 := by
    refine rep_ext hrep1 hreprt (by rw [hstrsrt, hstrs1, hstrsh, hstrsr]) ?_
    intro a ha
    have ha1 : a ≠ newh := fun h => ha (by simp [h])
    have ha3 : a ∉ E.reverse.map Elem.node := fun h => ha (by
      rw [List.map_append, List.mem_append]
      exact Or.inl h)
    have ha2 : a ∉ E.map Elem.node := fun h => ha3 (by
      rw [List.map_reverse, List.mem_reverse]
      exact h)
    rw [hframert a ha1 (hrepr.not_tail ha3), hframer a ha2,
      hframe1 a (by simp; exact ⟨ha1, by simpa using ha2⟩), hnodesh, store_other _ _ _ _ ha1]
  have h2 : wrh = w2 := by
    refine rep_ext hrep2 hreprh (by rw [hstrsrh, hstrs2, hstrst, hstrsr]) ?_
    intro a ha
    have ha1 : a ≠ newh := fun h => ha (by simp [h])
    have ha2 : a ∉ E.map Elem.node := fun h => ha (by
      simp only [List.map_cons, List.mem_cons, List.map_reverse, List.mem_reverse]
      exact Or.inr h)
    rw [hnodesrh, store_other _ _ _ _ ha1, hframer a ha2,
      hframe2 a (by simp; exact ⟨by simpa using ha2, ha1⟩), hframet a ha1 (hrep.not_tail ha2)]
  subst h1 h2
  exact ⟨wh, wt, wr, wrt, wrh, hrunr, hrunh, hrun1, hrunrt, hrep1, hrunt, hrun2, hrunrh, hrep2⟩

theorem q_reverse_exchanges_ends_witness :
    (Rep w_ba E_ba ∧ w_ba.nodes 3 = none ∧ w_ba.strs 103 = none ∧ E_ba.length + 1 ≤ 3) ∧
    ∃ wh wt wr w1 w2,
      q_reverse 3 w_ba = some wr ∧
      q_insert_head w_ba cherry (some 3) (some 103) = some (true, wh) ∧
      q_reverse 3 wh = some w1 ∧
      q_insert_tail wr cherry (some 3) (some 103) = some (true, w1) ∧
      Rep w1 (E_ba.reverse ++ [⟨3, 103, cherry⟩]) ∧
      q_insert_tail w_ba cherry (some 3) (some 103) = some (true, wt) ∧
      q_reverse 3 wt = some w2 ∧
      q_insert_head wr cherry (some 3) (some 103) = some (true, w2) ∧
      Rep w2 (⟨3, 103, cherry⟩ :: E_ba.reverse) :=
  ⟨⟨rep_w_ba, by simp [w_ba, store, no_blocks], by simp [w_ba, store, no_blocks], by decide⟩,
    q_reverse_exchanges_ends w_ba E_ba cherry 3 103 3 rep_w_ba
      (by simp [w_ba, store, no_blocks]) (by simp [w_ba, store, no_blocks]) (by decide)⟩

/-! ## Order of equal elements, and sorting twice -/

section pure_sort2
variable {α : Type}

theorem insert_before_eq_orderedInsert (le : α → α → Bool) (r : α → α → Prop)
    [DecidableRel r] (hr : ∀ a b, le a b = true ↔ r a b) (x : α) :
    ∀ (L : List α), insert_before le x L = List.orderedInsert r x L
  | [] => rfl
  | y :: L => by
    have ih := insert_before_eq_orderedInsert le r hr x L
    by_cases h : r x y
    · simp [insert_before, List.orderedInsert, h, (hr x y).2 h]
    · have h2 : ¬ le x y = true := fun h3 => h ((hr x y).1 h3)
      simp [insert_before, List.orderedInsert, h, h2, ih]

/-- The insertion sort of `q_sort` is the stable insertion sort of the reversed list. -/
theorem insertion_sort_eq_insertionSort (le : α → α → Bool) (r : α → α → Prop)
    [DecidableRel r] (hr : ∀ a b, le a b = true ↔ r a b) (L : List α) :
    insertion_sort le L = List.insertionSort r L.reverse := by
  induction L using List.reverseRecOn with
  | nil => rfl
  | append_singleton L x ih =>
    unfold insertion_sort at ih ⊢
    rw [List.foldl_append, List.reverse_append]
    simp only [List.foldl_cons, List.foldl_nil, List.reverse_singleton, List.singleton_append,
      List.insertionSort]
    rw [ih, insert_before_eq_orderedInsert le r hr]
    rfl

theorem insertion_sort_reverses_pair (le : α → α → Bool) {a b : α} {L : List α}
    (hba : le b a = true) (h : List.Sublist [a, b] L) :
    List.Sublist [b, a] (insertion_sort le L) := by
  rw [insertion_sort_eq_insertionSort le (fun x y => le x y = true) (fun _ _ => Iff.rfl)]
  refine List.pair_sublist_insertionSort hba ?_
  have := List.reverse_sublist.2 h
  simpa using this

end pure_sort2

theorem lex_cmp_le (a b : Str) : lex_cmp a b ≤ 0 ↔ a ≤ b := by
  unfold lex_cmp
  by_cases h1 : a ≤ b
  · by_cases h2 : b ≤ a <;> simp [h1, h2]
  · simp [h1]

theorem rep_w_dup : Rep w_dup E_dup := by
  constructor <;> simp [w_dup, E_dup, chain, store]

/-- C19: on a well-formed queue, if the element `a` precedes the element `b` in the
queue and `cmp b a ≤ 0` (as it is when the two values compare equal, `cmp = 0` in both
directions), then `b` precedes `a` in the queue after `q_sort`; no property of the
comparator is needed. -/
theorem q_sort_reverses_equal (cmp : Str → Str → Int) (w : World) (E : List Elem)
    (fuel : Nat) (a b : Elem) (hrep : Rep w E) (hfuel : E.length ≤ fuel)
    (hab : List.Sublist [a, b] E) (hba : cmp b.str a.str ≤ 0) :
    ∃ w1 E1, q_sort cmp fuel w = some w1 ∧ Rep w1 E1 ∧ E1.Perm E ∧
      List.Sublist [b, a] E1 := by
  obtain ⟨w1, hrun, hrep1, _⟩ := sort_spec cmp fuel hrep hfuel
  refine ⟨w1, _, hrun, hrep1, insertion_sort_perm _ _, ?_⟩
  exact insertion_sort_reverses_pair (elem_le cmp) (by simpa [elem_le] using hba) hab

theorem q_sort_reverses_equal_witness :
    (Rep w_dup E_dup ∧ E_dup.length ≤ 2 ∧
      List.Sublist [(⟨1, 101, banana⟩ : Elem), ⟨2, 102, banana⟩] E_dup ∧
      key_cmp banana banana ≤ 0) ∧
    ∃ w1 E1, q_sort key_cmp 2 w_dup = some w1 ∧ Rep w1 E1 ∧ E1.Perm E_dup ∧
      List.Sublist [(⟨2, 102, banana⟩ : Elem), ⟨1, 101, banana⟩] E1 :=
  ⟨⟨rep_w_dup, by decide, List.Sublist.refl _, by decide⟩,
    q_sort_reverses_equal key_cmp w_dup E_dup 2 ⟨1, 101, banana⟩ ⟨2, 102, banana⟩ rep_w_dup
      (by decide) (List.Sublist.refl _) (by decide)⟩

theorem key_cmp_le (a b : Str) : key_cmp a b ≤ 0 ↔ str_key a ≤ str_key b := by
  unfold key_cmp
  rcases lt_trichotomy (str_key a) (str_key b) with h | h | h
  · simp [h, le_of_lt h]
  · simp [h]
  · have h1 : ¬ str_key a < str_key b := not_lt.2 (le_of_lt h)
    have h2 : ¬ str_key a = str_key b := ne_of_gt h
    simp [h1, h2, h]

theorem key_cmp_trans (a b c : Str) (hab : key_cmp a b ≤ 0) (hbc : key_cmp b c ≤ 0) :
    key_cmp a c ≤ 0 :=
  (key_cmp_le a c).2 (le_trans ((key_cmp_le a b).1 hab) ((key_cmp_le b c).1 hbc))

theorem insertion_sort_dup :
    insertion_sort (elem_le key_cmp) E_dup = [⟨2, 102, banana⟩, ⟨1, 101, banana⟩] := by
  decide

/-- C13, as stated, fails: with the total and transitive comparator `key_cmp`, in the
queue `[banana, banana]` the element at node 1 precedes the element at node 2 and the
two values compare equal, and after `q_sort` the queue holds the element at node 2 first
and the element at node 1 second. -/
theorem q_sort_not_stable :
    (∀ a b, key_cmp a b ≤ 0 ∨ key_cmp b a ≤ 0) ∧
    (∀ a b c, key_cmp a b ≤ 0 → key_cmp b c ≤ 0 → key_cmp a c ≤ 0) ∧
    Rep w_dup E_dup ∧
    List.Sublist [(⟨1, 101, banana⟩ : Elem), ⟨2, 102, banana⟩] E_dup ∧
    key_cmp banana banana = 0 ∧
    ∃ w1, q_sort key_cmp 2 w_dup = some w1 ∧
      Rep w1 [⟨2, 102, banana⟩, ⟨1, 101, banana⟩] ∧
      ¬ List.Sublist [(⟨1, 101, banana⟩ : Elem), ⟨2, 102, banana⟩]
        [⟨2, 102, banana⟩, ⟨1, 101, banana⟩] := by
  refine ⟨key_cmp_total, key_cmp_trans, rep_w_dup, List.Sublist.refl _, by decide, ?_⟩
  obtain ⟨w1, hrun, hrep1, _⟩ := sort_spec key_cmp 2 rep_w_dup (by decide)
  rw [insertion_sort_dup] at hrep1
  exact ⟨w1, hrun, hrep1, by decide⟩

/-- C13, amended: on a well-formed queue and for every comparator, `q_sort` returns the
queue whose element sequence is the stable insertion sort of the elements read from
`tail` to `head`; any two elements whose values compare equal (`cmp = 0` in both
directions) appear in the sorted queue in the reverse of their relative order in the
input queue. -/
theorem q_sort_stable_reversed (cmp : Str → Str → Int) (w : World) (E : List Elem)
    (fuel : Nat) (hrep : Rep w E) (hfuel : E.length ≤ fuel) :
    ∃ w1, q_sort cmp fuel w = some w1 ∧
      Rep w1 (List.insertionSort (fun x y : Elem => cmp x.str y.str ≤ 0) E.reverse) ∧
      ∀ a b : Elem, List.Sublist [a, b] E → cmp a.str b.str = 0 → cmp b.str a.str = 0 →
        List.Sublist [b, a]
          (List.insertionSort (fun x y : Elem => cmp x.str y.str ≤ 0) E.reverse) := by
  obtain ⟨w1, hrun, hrep1, _⟩ := sort_spec cmp fuel hrep hfuel
  have heq := insertion_sort_eq_insertionSort (elem_le cmp)
    (fun x y : Elem => cmp x.str y.str ≤ 0) (fun x y => by simp [elem_le]) E
  rw [heq] at hrep1
  refine ⟨w1, hrun, hrep1, ?_⟩
  intro a b hab _ hba
  rw [← heq]
  exact insertion_sort_reverses_pair (elem_le cmp) (by simp [elem_le, hba]) hab

theorem q_sort_stable_reversed_witness :
    (Rep w_dup E_dup ∧ E_dup.length ≤ 2) ∧
    ∃ w1, q_sort key_cmp 2 w_dup = some w1 ∧
      Rep w1 (List.insertionSort (fun x y : Elem => key_cmp x.str y.str ≤ 0) E_dup.reverse) ∧
      ∀ a b : Elem, List.Sublist [a, b] E_dup → key_cmp a.str b.str = 0 →
        key_cmp b.str a.str = 0 →
        List.Sublist [b, a]
          (List.insertionSort (fun x y : Elem => key_cmp x.str y.str ≤ 0) E_dup.reverse) :=
  ⟨⟨rep_w_dup, by decide⟩, q_sort_stable_reversed key_cmp w_dup E_dup 2 rep_w_dup (by decide)⟩

/-- C12: on a well-formed queue and for a comparator that is total, transitive and
antisymmetric (`cmp a b ≤ 0` and `cmp b a ≤ 0` only for equal strings; `cmp a a = 0`
is not needed), `q_sort` applied twice returns, and the sequence of values after the
second call is the sequence of values after the first. -/
theorem q_sort_idempotent (cmp : Str → Str → Int) (w : World) (E : List Elem) (fuel : Nat)
    (hrep : Rep w E) (hfuel : E.length ≤ fuel)
    (htotal : ∀ a b, cmp a b ≤ 0 ∨ cmp b a ≤ 0)
    (htrans : ∀ a b c, cmp a b ≤ 0 → cmp b c ≤ 0 → cmp a c ≤ 0)
    (hanti : ∀ a b, cmp a b ≤ 0 → cmp b a ≤ 0 → a = b) :
    ∃ w1 w2 E1 E2, q_sort cmp fuel w = some w1 ∧ q_sort cmp fuel w1 = some w2 ∧
      Rep w1 E1 ∧ Rep w2 E2 ∧ E2.map Elem.str = E1.map Elem.str := by
  obtain ⟨w1, hrun1, hrep1, _⟩ := sort_spec cmp fuel hrep hfuel
  have hlen := (insertion_sort_perm (elem_le cmp) E).length_eq
  obtain ⟨w2, hrun2, hrep2, _⟩ := sort_spec cmp fuel hrep1 (by rw [hlen]; exact hfuel)
  refine ⟨w1, w2, _, _, hrun1, hrun2, hrep1, hrep2, ?_⟩
  haveI : IsTrans Str (fun a b => cmp a b ≤ 0) := ⟨htrans⟩
  haveI : IsAntisymm Str (fun a b => cmp a b ≤ 0) := ⟨hanti⟩
  have hsorted : ∀ L : List Elem,
      ((insertion_sort (elem_le cmp) L).map Elem.str).Sorted (fun a b => cmp a b ≤ 0) := by
    intro L
    have h := insertion_sort_chain (elem_le cmp)
      (fun a b => by simpa [elem_le] using htotal a.str b.str) L
    have h2 : ((insertion_sort (elem_le cmp) L).map Elem.str).Chain'
        (fun a b => cmp a b ≤ 0) := by
      rw [List.chain'_map]
      refine h.imp ?_
      intro a b hab
      simpa [elem_le] using hab
    exact List.chain'_iff_pairwise.1 h2
  exact List.eq_of_perm_of_sorted
    ((insertion_sort_perm (elem_le cmp) (insertion_sort (elem_le cmp) E)).map Elem.str)
    (hsorted _) (hsorted _)

theorem q_sort_idempotent_witness :
    (Rep w_items E_items ∧ E_items.length ≤ 3 ∧
      (∀ a b, lex_cmp a b ≤ 0 ∨ lex_cmp b a ≤ 0) ∧
      (∀ a b c, lex_cmp a b ≤ 0 → lex_cmp b c ≤ 0 → lex_cmp a c ≤ 0) ∧
      (∀ a b, lex_cmp a b ≤ 0 → lex_cmp b a ≤ 0 → a = b)) ∧
    ∃ w1 w2 E1 E2, q_sort lex_cmp 3 w_items = some w1 ∧ q_sort lex_cmp 3 w1 = some w2 ∧
      Rep w1 E1 ∧ Rep w2 E2 ∧ E2.map Elem.str = E1.map Elem.str := by
  have h1 : ∀ a b, lex_cmp a b ≤ 0 ∨ lex_cmp b a ≤ 0 := fun a b => by
    rw [lex_cmp_le, lex_cmp_le]; exact le_total a b
  have h2 : ∀ a b c, lex_cmp a b ≤ 0 → lex_cmp b c ≤ 0 → lex_cmp a c ≤ 0 := fun a b c => by
    rw [lex_cmp_le, lex_cmp_le, lex_cmp_le]; exact le_trans
  have h3 : ∀ a b, lex_cmp a b ≤ 0 → lex_cmp b a ≤ 0 → a = b := fun a b => by
    rw [lex_cmp_le, lex_cmp_le]; exact le_antisymm
  exact ⟨⟨rep_w_items, by decide, h1, h2, h3⟩,
    q_sort_idempotent lex_cmp w_items E_items 3 rep_w_items (by decide) h1 h2 h3⟩

/-! ## Releasing the queue -/

theorem mem_elem_blocks (f : Freed) :
    ∀ (E : List Elem), f ∈ elem_blocks E ↔ ∃ x ∈ E, f = Freed.str x.vptr ∨ f = Freed.node x.node
  | [] => by simp [elem_blocks]
  | y :: E => by
    simp only [elem_blocks, List.mem_cons, mem_elem_blocks f E]
    constructor
    · rintro (h | h | ⟨x, hx, h⟩)
      · exact ⟨y, Or.inl rfl, Or.inl h⟩
      · exact ⟨y, Or.inl rfl, Or.inr h⟩
      · exact ⟨x, Or.inr hx, h⟩
    · rintro ⟨x, hx | hx, h⟩
      · subst hx
        rcases h with h | h
        · exact Or.inl h
        · exact Or.inr (Or.inl h)
      · exact Or.inr (Or.inr ⟨x, hx, h⟩)

theorem elem_blocks_nodup :
    ∀ (E : List Elem), (E.map Elem.node).Nodup → (E.map Elem.vptr).Nodup →
      (elem_blocks E).Nodup
  | [], _, _ => List.nodup_nil
  | y :: E, hn, hv => by
    simp only [List.map_cons, List.nodup_cons] at hn hv
    simp only [elem_blocks, List.nodup_cons, List.mem_cons, mem_elem_blocks]
    refine ⟨?_, ?_, elem_blocks_nodup E hn.2 hv.2⟩
    · rintro (h | ⟨x, hx, h | h⟩)
      · cases h
      · injection h with h
        exact hv.1 (h ▸ List.mem_map_of_mem _ hx)
      · cases h
    · rintro ⟨x, hx, h | h⟩
      · cases h
      · injection h with h
        exact hn.1 (h ▸ List.mem_map_of_mem _ hx)

/-- The loop of `q_free` on a chain of elements that own their strings: every node and
every string of the chain is released, in order, and nothing else is touched. -/
theorem free_loop_spec :
    ∀ (E : List Elem) (nodes : Heap list_ele_t) (strs : Heap Str) (p : Option Ptr)
      (fuel : Nat), chain nodes p (E.map Elem.node) →
      (∀ x ∈ E, (∃ nx, nodes x.node = some ⟨some x.vptr, nx⟩) ∧ strs x.vptr = some x.str) →
      (E.map Elem.vptr).Nodup → E.length < fuel →
      free_loop fuel nodes strs p = some
        ((fun a => if a ∈ E.map Elem.node then none else nodes a),
          (fun v => if v ∈ E.map Elem.vptr then none else strs v), elem_blocks E)
  | [], nodes, strs, p, fuel, hchain, _, _, hfuel => by
    obtain ⟨f, rfl⟩ : ∃ f, fuel = f + 1 := ⟨fuel - 1, by omega⟩
    simp only [List.map_nil, chain] at hchain
    subst hchain
    simp [free_loop, elem_blocks]
  | x :: E, nodes, strs, p, fuel, hchain, howns, hdist, hfuel => by
    obtain ⟨f, rfl⟩ : ∃ f, fuel = f + 1 := ⟨fuel - 1, by omega⟩
    have hnd := chain_nodup hchain
    simp only [List.map_cons, List.nodup_cons] at hnd hdist
    obtain ⟨hp, e, he, hrest⟩ := hchain
    subst hp
    obtain ⟨⟨nx, hnx⟩, hsx⟩ := howns x (List.mem_cons_self _ _)
    rw [hnx] at he
    have he2 := Option.some.inj he
    subst he2
    simp only at hrest
    have ih := free_loop_spec E (store nodes x.node none) (store strs x.vptr none) nx f
      (by
        refine chain_frame ?_ hrest
        intro a ha
        exact store_other _ _ _ _ (fun h => hnd.1 (h ▸ ha)))
      (by
        intro y hy
        obtain ⟨⟨ny, hny⟩, hsy⟩ := howns y (List.mem_cons_of_mem _ hy)
        have h1 : y.node ≠ x.node := fun h => hnd.1 (h ▸ List.mem_map_of_mem _ hy)
        have h2 : y.vptr ≠ x.vptr := fun h => hdist.1 (h ▸ List.mem_map_of_mem _ hy)
        exact ⟨⟨ny, by rw [store_other _ _ _ _ h1, hny]⟩, by rw [store_other _ _ _ _ h2, hsy]⟩)
      hdist.2 (by simp at hfuel; omega)
    simp only [free_loop, hnx, free, hsx, ih, elem_blocks, List.singleton_append]
    have h1 : (fun a => if a ∈ E.map Elem.node then none else store nodes x.node none a) =
        (fun a => if a ∈ (x :: E).map Elem.node then none else nodes a) := by
      funext a
      by_cases ha : a = x.node
      · subst ha; simp
      · simp [store_other _ _ _ _ ha, ha]
    have h2 : (fun v => if v ∈ E.map Elem.vptr then none else store strs x.vptr none v) =
        (fun v => if v ∈ (x :: E).map Elem.vptr then none else strs v) := by
      funext v
      by_cases hv : v = x.vptr
      · subst hv; simp
      · simp [store_other _ _ _ _ hv, hv]
    rw [h1, h2]

/-- C16: on a well-formed queue with elements `E`, `q_free` returns (no call of `free`
is on a block that is not allocated), and the blocks it releases are, in order, for each
element its string and then its node, and at the end the queue structure: each of these
once and nothing else; afterwards none of these blocks is allocated and every other
block is as before.  With a `NULL` handle `q_free` releases nothing and changes
nothing. -/
theorem q_free_releases (w : World) (E : List Elem) (fuel : Nat) (hrep : Rep w E)
    (hfuel : E.length < fuel) :
    (∃ w1, q_free fuel w = some (w1, owned_blocks E) ∧ w1.q = none ∧
      (∀ a, w1.nodes a = if a ∈ E.map Elem.node then none else w.nodes a) ∧
      (∀ v, w1.strs v = if v ∈ E.map Elem.vptr then none else w.strs v)) ∧
    (owned_blocks E).Nodup ∧
    (∀ f, f ∈ owned_blocks E ↔
      (f = Freed.queue ∨ ∃ x ∈ E, f = Freed.str x.vptr ∨ f = Freed.node x.node)) ∧
    q_free fuel ⟨none, w.nodes, w.strs⟩ = some (⟨none, w.nodes, w.strs⟩, []) := by
  have hloop := free_loop_spec E w.nodes w.strs _ fuel hrep.links hrep.owns hrep.distinct hfuel
  refine ⟨⟨⟨none, (fun a => if a ∈ E.map Elem.node then none else w.nodes a),
    (fun v => if v ∈ E.map Elem.vptr then none else w.strs v)⟩, ?_, rfl, fun _ => rfl,
    fun _ => rfl⟩, ?_, ?_, rfl⟩
  · simp only [q_free, hrep.handle, hloop, owned_blocks]
  · unfold owned_blocks
    rw [List.nodup_append]
    refine ⟨elem_blocks_nodup E hrep.nodup hrep.distinct, by simp, ?_⟩
    intro f hf hq
    simp only [List.mem_singleton] at hq
    subst hq
    obtain ⟨x, _, h | h⟩ := (mem_elem_blocks _ E).1 hf <;> cases h
  · intro f
    unfold owned_blocks
    rw [List.mem_append, mem_elem_blocks, List.mem_singleton]
    exact or_comm

theorem q_free_releases_witness :
    (Rep w_ba E_ba ∧ E_ba.length < 3) ∧
    (∃ w1, q_free 3 w_ba = some (w1,
        [Freed.str 101, Freed.node 1, Freed.str 102, Freed.node 2, Freed.queue]) ∧
      w1.q = none ∧
      (∀ a, w1.nodes a = if a ∈ E_ba.map Elem.node then none else w_ba.nodes a) ∧
      (∀ v, w1.strs v = if v ∈ E_ba.map Elem.vptr then none else w_ba.strs v)) :=
  ⟨⟨rep_w_ba, by decide⟩, (q_free_releases w_ba E_ba 3 rep_w_ba (by decide)).1⟩

/-! ## The queue invariants -/

end Queue
